import Mathlib

/-!
USTAR header decoder (tar.c / tar.h): shallow embedding and verified properties

Bytes are `Fin 256`; the fixed-width C integers are natural numbers reduced
modulo `2 ^ 64` or `2 ^ 32` at every operation where the C code can wrap.
A header is the 512 bytes of `tar_header_t`, addressed by offset exactly as
the struct lays its fields out (all members are `uint8_t` arrays, so there is
no padding between them).
-/

set_option autoImplicit false
set_option maxRecDepth 100000

namespace Tar

/-! ## Data model (tar.h) -/

/-- One octet, the C type of every header member. -/
abbrev uint8_t := Fin 256

/-- The 512-byte header block of tar.h, as the raw bytes the struct overlays. -/
structure tar_header_t where
  bytes : List uint8_t
  size_eq : bytes.length = 512

/-- The member of a header that starts at offset `off` and is `width` bytes wide. -/
def tar_header_t.member (h : tar_header_t) (off width : Nat) : List uint8_t :=
  (h.bytes.drop off).take width

/-- Member `uint8_t filename[100]`, offsets 0..99. -/
def tar_header_t.filename (h : tar_header_t) : List uint8_t := h.member 0 100
/-- Member `uint8_t mode[8]`, offsets 100..107. -/
def tar_header_t.mode (h : tar_header_t) : List uint8_t := h.member 100 8
/-- Member `uint8_t uid[8]`, offsets 108..115. -/
def tar_header_t.uid (h : tar_header_t) : List uint8_t := h.member 108 8
/-- Member `uint8_t gid[8]`, offsets 116..123. -/
def tar_header_t.gid (h : tar_header_t) : List uint8_t := h.member 116 8
/-- Member `uint8_t size[12]`, offsets 124..135. -/
def tar_header_t.size (h : tar_header_t) : List uint8_t := h.member 124 12
/-- Member `uint8_t modify_time[12]`, offsets 136..147. -/
def tar_header_t.modify_time (h : tar_header_t) : List uint8_t := h.member 136 12
/-- Member `uint8_t checksum[8]`, offsets 148..155. -/
def tar_header_t.checksum (h : tar_header_t) : List uint8_t := h.member 148 8
/-- Member `uint8_t type`, offset 156. -/
def tar_header_t.type (h : tar_header_t) : uint8_t := h.bytes.getD 156 0
/-- Member `uint8_t linked_filename[100]`, offsets 157..256. -/
def tar_header_t.linked_filename (h : tar_header_t) : List uint8_t := h.member 157 100
/-- Member `uint8_t magic[6]`, offsets 257..262. -/
def tar_header_t.magic (h : tar_header_t) : List uint8_t := h.member 257 6
/-- Member `uint8_t version[2]`, offsets 263..264. -/
def tar_header_t.version (h : tar_header_t) : List uint8_t := h.member 263 2
/-- Member `uint8_t owner_name[32]`, offsets 265..296. -/
def tar_header_t.owner_name (h : tar_header_t) : List uint8_t := h.member 265 32
/-- Member `uint8_t group_name[32]`, offsets 297..328. -/
def tar_header_t.group_name (h : tar_header_t) : List uint8_t := h.member 297 32
/-- Member `uint8_t device_major[8]`, offsets 329..336. -/
def tar_header_t.device_major (h : tar_header_t) : List uint8_t := h.member 329 8
/-- Member `uint8_t device_minor[8]`, offsets 337..344. -/
def tar_header_t.device_minor (h : tar_header_t) : List uint8_t := h.member 337 8
/-- Member `uint8_t filename_prefix[155]`, offsets 345..499. -/
def tar_header_t.filename_prefix (h : tar_header_t) : List uint8_t := h.member 345 155
/-- Member `uint8_t padding[12]`, offsets 500..511. -/
def tar_header_t.padding (h : tar_header_t) : List uint8_t := h.member 500 12

/-- The read `((const uint8_t*) header)[i]`. -/
def tar_header_t.byte (h : tar_header_t) (i : Nat) : uint8_t := h.bytes.getD i 0

/-! ## parse_octal (tar.c, lines 44-61) -/

/-- The while loop of `parse_octal`: `rest` is the bytes from `field` up to
`buffer_e`, `value` the 64-bit accumulator. A space continues, a digit
`'0'..'7'` updates `value = (8 * value) + (b - '0')` in 64-bit unsigned
arithmetic, anything else breaks out of the loop. -/
def parse_octal_loop : List uint8_t → Nat → Nat
  | [], value => value
  | b :: rest, value =>
    if b.val = 32 then parse_octal_loop rest value
    else if 48 ≤ b.val ∧ b.val ≤ 55 then
      parse_octal_loop rest (((8 * value) % 2 ^ 64 + (b.val - 48)) % 2 ^ 64)
    else value

/-- The function `parse_octal(field, n_bytes)`: scans the first `n_bytes` bytes at `field`. -/
def parse_octal (field : List uint8_t) (n_bytes : Nat) : Nat :=
  parse_octal_loop (field.take n_bytes) 0

/-! ### Reference decoder, written from the specification's words -/

/-- A space byte, 0x20. -/
def is_space (b : uint8_t) : Bool := decide (b.val = 32)

/-- A digit byte `'0'..'7'`. -/
def is_octal_digit (b : uint8_t) : Bool := decide (48 ≤ b.val ∧ b.val ≤ 55)

/-- The longest prefix made only of space bytes and octal digit bytes. -/
def octal_scan_span (xs : List uint8_t) : List uint8_t :=
  xs.takeWhile (fun b => is_space b || is_octal_digit b)

/-- The value of a string of digit bytes read as a base-8 numeral, most
significant digit first; the empty numeral is 0. No reduction is applied. -/
def octal_numeral_value (ds : List uint8_t) : Nat :=
  ds.foldl (fun acc d => 8 * acc + (d.val - 48)) 0

/-- The reference value of the specification: cut at the first byte that is
neither a space nor an octal digit, delete the spaces, read the digits in
base 8, reduce modulo `2 ^ 64`. -/
def parse_octal_ref (xs : List uint8_t) : Nat :=
  octal_numeral_value ((octal_scan_span xs).filter (fun b => !is_space b)) % 2 ^ 64

/-! ### Octal field writer, written from the specification's words -/

/-- The base-8 digits of `v`, most significant first and without leading
zeros (a single `0` for zero), produced by at most `fuel` divisions. -/
def octal_digits : Nat → Nat → List Nat
  | 0, _ => []
  | fuel + 1, v => if v < 8 then [v] else octal_digits fuel (v / 8) ++ [v % 8]

/-- The ASCII byte of the octal digit `d`. -/
def octal_digit_byte (d : Nat) : uint8_t := ⟨48 + d % 8, by omega⟩

/-- The minimal-width base-8 ASCII numeral of `v`. -/
def octal_numeral (v : Nat) : List uint8_t :=
  (octal_digits (v + 1) v).map octal_digit_byte

/-- The numeral of `v` left-padded with spaces to a field of `w` bytes. -/
def octal_field (w v : Nat) : List uint8_t :=
  List.replicate (w - (octal_numeral v).length) (32 : uint8_t) ++ octal_numeral v

/-! ## Text primitives (tar.c, lines 31-41 and 64-72) -/

/-- The 256-byte scratch buffer `tar_string_buffer_t`; `str` is its content. -/
structure tar_string_buffer_t where
  str : List uint8_t

/-- The function `strnlen_(s, maxlen)`: the loop counts bytes from `s` until
it meets a NUL or has counted `maxlen` of them. -/
def strnlen_ : List uint8_t → Nat → Nat
  | b :: rest, maxlen + 1 => if b.val = 0 then 0 else strnlen_ rest maxlen + 1
  | _, _ => 0

/-- The C library's `strnlen(s, maxlen)`, which `tar_get_filename` calls for
the name member: the number of bytes before the first NUL, at most `maxlen`. -/
def strnlen : List uint8_t → Nat → Nat
  | b :: rest, maxlen + 1 => if b.val = 0 then 0 else strnlen rest maxlen + 1
  | _, _ => 0

/-- The C library's `memcpy(dst + off, src, n)` on the content `dst` of the
buffer: byte `i` of `src` is stored at index `off + i`, for every `i < n`. -/
def memcpy (dst : List uint8_t) (off : Nat) (src : List uint8_t) : Nat → List uint8_t
  | 0 => dst
  | n + 1 => (memcpy dst off src n).set (off + n) (src.getD n 0)

/-- The function `parse_string(field, n_bytes, buffer)`, returning the buffer it leaves. -/
def parse_string (field : List uint8_t) (n_bytes : Nat) (buffer : tar_string_buffer_t) :
    tar_string_buffer_t :=
  let len := strnlen_ field n_bytes
  let str1 := memcpy buffer.str 0 field len
  { str := str1.set len 0 }

/-- The C string a caller reads at the returned pointer `buffer->str`: the
bytes before the first NUL. -/
def c_string (buffer : tar_string_buffer_t) : List uint8_t :=
  buffer.str.takeWhile (fun b => decide (b.val ≠ 0))

/-! ## tar_validate_header (tar.c, lines 75-121) -/

/-- The C library's `memcmp(a, b, n)`: zero when the first `n` bytes agree,
otherwise the difference of the first pair of bytes that differ. -/
def memcmp : List uint8_t → List uint8_t → Nat → Int
  | a :: as, b :: bs, n + 1 => if a = b then memcmp as bs n else (a.val : Int) - (b.val : Int)
  | _, _, _ => 0

/-- The string literal "ustar" (its first five bytes). -/
def ustar : List uint8_t := [117, 115, 116, 97, 114]

/-- The value of `((const int8_t*) header)[i]` for the byte `b`. -/
def int8_t_val (b : uint8_t) : Int := if b.val < 128 then (b.val : Int) else (b.val : Int) - 256

/-- The `uint32_t` that the signed byte `((const int8_t*) header)[i]` converts
to when it is added to a `uint32_t`: the value itself when it is not negative,
and `2 ^ 32` plus the (negative) value otherwise. -/
def int8_t_as_uint32 (b : uint8_t) : Nat :=
  if b.val < 128 then b.val else 2 ^ 32 - 256 + b.val

/-- One loop `for (i = lo; i < hi; i++) checksum_unsigned += bytes[i]` on the
32-bit accumulator `acc`, where `range` is the bytes at offsets `lo..hi-1`. -/
def checksum_unsigned_loop (range : List uint8_t) (acc : Nat) : Nat :=
  range.foldl (fun acc b => (acc + b.val) % 2 ^ 32) acc

/-- One loop `for (i = lo; i < hi; i++) checksum_signed += sbytes[i]`, where
`range` is the bytes at offsets `lo..hi-1`: each signed byte is converted to
`uint32_t` and added modulo `2 ^ 32`. -/
def checksum_signed_loop (range : List uint8_t) (acc : Nat) : Nat :=
  range.foldl (fun acc b => (acc + int8_t_as_uint32 b) % 2 ^ 32) acc

/-- The value of `checksum_unsigned` after the loops over offsets 0..147 and 156..499. -/
def checksum_unsigned (h : tar_header_t) : Nat :=
  checksum_unsigned_loop (h.member 156 344) (checksum_unsigned_loop (h.member 0 148) 256)

/-- The value of `checksum_signed` after the loops over offsets 0..147 and 156..499. -/
def checksum_signed (h : tar_header_t) : Nat :=
  checksum_signed_loop (h.member 156 344) (checksum_signed_loop (h.member 0 148) 256)

/-- The value of `checksum_parsed`: `parse_octal(header->checksum, 8)` stored in a `uint32_t`. -/
def checksum_parsed (h : tar_header_t) : Nat :=
  parse_octal h.checksum 8 % 2 ^ 32

/-- The function `tar_validate_header(header)`. -/
def tar_validate_header (h : tar_header_t) : Bool :=
  if memcmp h.magic ustar 5 ≠ 0 then false
  else if (h.magic.getD 5 0).val ≠ 0 ∧ (h.magic.getD 5 0).val ≠ 32 then false
  else if parse_octal h.version 2 ≠ 0 then false
  else
    decide (checksum_parsed h = checksum_unsigned h ∨ checksum_parsed h = checksum_signed h)

/-! ## Field accessors (tar.c, lines 124-218) -/

/-- The conversion `(int) x` of a 64-bit unsigned value to a 32-bit `int`. -/
def to_int (x : Nat) : Int :=
  if x % 2 ^ 32 < 2 ^ 31 then ((x % 2 ^ 32 : Nat) : Int) else ((x % 2 ^ 32 : Nat) : Int) - 2 ^ 32

/-- The function `tar_get_mode(header)`. -/
def tar_get_mode (h : tar_header_t) : Int :=
  to_int (parse_octal h.mode 8)

/-- The enumeration `tar_type_t`: a C enum is an integer, the enumerants are its named values. -/
abbrev tar_type_t := Nat

def TAR_TYPE_NORMAL_FILE : tar_type_t := 48
def TAR_TYPE_HARD_LINK : tar_type_t := 49
def TAR_TYPE_SYMBOLIC_LINK : tar_type_t := 50
def TAR_TYPE_CHARACTER_SPECIAL : tar_type_t := 51
def TAR_TYPE_BLOCK_SPECIAL : tar_type_t := 52
def TAR_TYPE_DIRECTORY : tar_type_t := 53
def TAR_TYPE_FIFO : tar_type_t := 54
def TAR_TYPE_UNSUPPORTED : tar_type_t := 63

/-- The eight enumerants declared by tar.h. -/
def tar_type_enumerants : List tar_type_t :=
  [TAR_TYPE_NORMAL_FILE, TAR_TYPE_HARD_LINK, TAR_TYPE_SYMBOLIC_LINK,
   TAR_TYPE_CHARACTER_SPECIAL, TAR_TYPE_BLOCK_SPECIAL, TAR_TYPE_DIRECTORY,
   TAR_TYPE_FIFO, TAR_TYPE_UNSUPPORTED]

/-- The function `tar_get_type(header)`. -/
def tar_get_type (h : tar_header_t) : tar_type_t :=
  if 48 ≤ h.type.val ∧ h.type.val ≤ 54 then h.type.val else TAR_TYPE_UNSUPPORTED

/-- The function `tar_get_filename(header, buffer)`, returning the buffer it leaves. -/
def tar_get_filename (h : tar_header_t) (buffer : tar_string_buffer_t) : tar_string_buffer_t :=
  let prefix_len := strnlen_ (tar_header_t.filename_prefix h) 155
  let str1 := memcpy buffer.str 0 (tar_header_t.filename_prefix h) prefix_len
  let suffix_len := strnlen h.filename 100
  let str2 := memcpy str1 prefix_len h.filename suffix_len
  { str := str2.set (prefix_len + suffix_len) 0 }

/-- The function `tar_get_linked_filename(header, buffer)`. -/
def tar_get_linked_filename (h : tar_header_t) (buffer : tar_string_buffer_t) :
    tar_string_buffer_t :=
  parse_string h.linked_filename 100 buffer

/-- The function `tar_get_owner_name(header, buffer)`. -/
def tar_get_owner_name (h : tar_header_t) (buffer : tar_string_buffer_t) : tar_string_buffer_t :=
  parse_string h.owner_name 32 buffer

/-- The function `tar_get_group_name(header, buffer)`. -/
def tar_get_group_name (h : tar_header_t) (buffer : tar_string_buffer_t) : tar_string_buffer_t :=
  parse_string h.group_name 32 buffer

/-- The bytes of a text member that precede its first NUL (the whole member
when it holds no NUL), in the specification's words. -/
def until_nul (field : List uint8_t) : List uint8_t :=
  field.takeWhile (fun b => decide (b.val ≠ 0))

/-! ### Checksums, written from the specification's words -/

/-- The bytes a checksum covers: offsets 0..147 followed by offsets 156..499. -/
def summed_bytes (h : tar_header_t) : List uint8_t :=
  h.member 0 148 ++ h.member 156 344

/-- The unsigned sum: 256 plus every covered byte taken as 0..255. -/
def unsigned_sum (h : tar_header_t) : Nat :=
  256 + ((summed_bytes h).map (fun b => b.val)).sum

/-- The signed sum: 256 plus every covered byte taken as -128..127. -/
def signed_sum (h : tar_header_t) : Int :=
  256 + ((summed_bytes h).map int8_t_val).sum

/-- An 8-byte checksum field holding `s`: six zero-padded octal digits, a NUL, a space. -/
def checksum_field (s : Nat) : List uint8_t :=
  [octal_digit_byte (s / 32768), octal_digit_byte (s / 4096), octal_digit_byte (s / 512),
   octal_digit_byte (s / 64), octal_digit_byte (s / 8), octal_digit_byte s, 0, 32]

/-! ## Concrete headers -/

/-- A member of width `w` holding `xs`, NUL-filled on the right. -/
def pad_field (w : Nat) (xs : List uint8_t) : List uint8_t :=
  (xs ++ List.replicate w (0 : uint8_t)).take w

/-- The header whose members hold the given bytes, in the order of the struct. -/
def tar_header_t.of_members (filename mode uid gid size modify_time checksum : List uint8_t)
    (type : uint8_t) (linked_filename magic version owner_name group_name device_major
      device_minor filename_prefix padding : List uint8_t) : tar_header_t where
  bytes :=
    pad_field 100 filename ++ pad_field 8 mode ++ pad_field 8 uid ++ pad_field 8 gid ++
    pad_field 12 size ++ pad_field 12 modify_time ++ pad_field 8 checksum ++ [type] ++
    pad_field 100 linked_filename ++ pad_field 6 magic ++ pad_field 2 version ++
    pad_field 32 owner_name ++ pad_field 32 group_name ++ pad_field 8 device_major ++
    pad_field 8 device_minor ++ pad_field 155 filename_prefix ++ pad_field 12 padding
  size_eq := by simp [pad_field]

/-- A header for the regular file "dir" + "a.txt": mode "0000755", uid and gid
"0001750", size "00000000012", magic "ustar" NUL, version "00", owner and
group "root", and the checksum field "012530" NUL space (5464, the unsigned sum). -/
def sample_header : tar_header_t :=
  tar_header_t.of_members [97, 46, 116, 120, 116] [48, 48, 48, 48, 55, 53, 53]
    [48, 48, 48, 49, 55, 53, 48] [48, 48, 48, 49, 55, 53, 48]
    [48, 48, 48, 48, 48, 48, 48, 48, 48, 49, 50] [49, 52, 48, 48, 48, 48, 48, 48, 48, 48, 48]
    [48, 49, 50, 53, 51, 48, 0, 32] 48 [] [117, 115, 116, 97, 114] [48, 48]
    [114, 111, 111, 116] [114, 111, 111, 116] [48, 48, 48, 48, 48, 48, 48]
    [48, 48, 48, 48, 48, 48, 48] [100, 105, 114] []

/-- The header `h` with the byte at offset `i` replaced by `v`. -/
def tar_header_t.set_byte (h : tar_header_t) (i : Nat) (v : uint8_t) : tar_header_t where
  bytes := h.bytes.set i v
  size_eq := by rw [List.length_set]; exact h.size_eq

/-- The header `h` with its checksum member (offsets 148..155) overwritten by `field`. -/
def tar_header_t.set_checksum (h : tar_header_t) (field : List uint8_t) : tar_header_t where
  bytes := h.bytes.take 148 ++ pad_field 8 field ++ h.bytes.drop 156
  size_eq := by
    have := h.size_eq
    simp only [List.length_append, List.length_take, List.length_drop, pad_field,
      List.length_replicate]
    omega

/-- The sample header with mode "0001755" (sticky bit set) and the matching
checksum field "012531" NUL space. -/
def sticky_header : tar_header_t :=
  (sample_header.set_byte 103 49).set_byte 153 49

/-- The sample header with the typeflag byte `'7'`. -/
def type7_header : tar_header_t :=
  sample_header.set_byte 156 55

/-- A scratch buffer whose 256 bytes all hold 0xAA. -/
def sample_buffer : tar_string_buffer_t := { str := List.replicate 256 (170 : uint8_t) }

/-! ## Numeric accessors (tar.c, lines 130-151 and 209-218) -/

/-- The conversion `(uint32_t) x` of a 64-bit unsigned value. -/
def to_uint32 (x : Nat) : Nat := x % 2 ^ 32

/-- The conversion `(int64_t) x` of a 64-bit unsigned value. -/
def to_int64 (x : Nat) : Int :=
  if x % 2 ^ 64 < 2 ^ 63 then ((x % 2 ^ 64 : Nat) : Int) else ((x % 2 ^ 64 : Nat) : Int) - 2 ^ 64

/-- The function `tar_get_uid(header)`. -/
def tar_get_uid (h : tar_header_t) : Nat := to_uint32 (parse_octal h.uid 8)

/-- The function `tar_get_gid(header)`. -/
def tar_get_gid (h : tar_header_t) : Nat := to_uint32 (parse_octal h.gid 8)

/-- The function `tar_get_size(header)`; the result type is `uint64_t`, the type of `parse_octal`. -/
def tar_get_size (h : tar_header_t) : Nat := parse_octal h.size 12

/-- The function `tar_get_modify_time(header)`. -/
def tar_get_modify_time (h : tar_header_t) : Int := to_int64 (parse_octal h.modify_time 12)

/-- The function `tar_get_device_major_number(header)`. -/
def tar_get_device_major_number (h : tar_header_t) : Nat :=
  to_uint32 (parse_octal h.device_major 8)

/-- The function `tar_get_device_minor_number(header)`. -/
def tar_get_device_minor_number (h : tar_header_t) : Nat :=
  to_uint32 (parse_octal h.device_minor 8)

/-- The loop of `parse_octal` carried out in unbounded arithmetic: the same
scan, with no reduction of the accumulator modulo `2 ^ 64`. -/
def parse_octal_loop_unbounded : List uint8_t → Nat → Nat
  | [], value => value
  | b :: rest, value =>
    if b.val = 32 then parse_octal_loop_unbounded rest value
    else if 48 ≤ b.val ∧ b.val ≤ 55 then
      parse_octal_loop_unbounded rest (8 * value + (b.val - 48))
    else value

/-- The byte sequence `xs` with every space byte (0x20) removed. -/
def remove_spaces (xs : List uint8_t) : List uint8_t :=
  xs.filter (fun b => !is_space b)

/-- The number of covered bytes (offsets 0..147 and 156..499) with value at least 0x80. -/
def high_byte_count (h : tar_header_t) : Nat :=
  (summed_bytes h).countP (fun b => decide (128 ≤ b.val))

/-- A valid header whose name and prefix members are filled with the byte
0xC3: 255 covered bytes are at least 0x80, the unsigned sum is 54375 (checksum
field "152147" NUL space) and the signed sum is -10905. -/
def high_header : tar_header_t :=
  tar_header_t.of_members (List.replicate 100 195) [48, 48, 48, 48, 55, 53, 53]
    [48, 48, 48, 49, 55, 53, 48] [48, 48, 48, 49, 55, 53, 48]
    [48, 48, 48, 48, 48, 48, 48, 48, 48, 49, 50] [49, 52, 48, 48, 48, 48, 48, 48, 48, 48, 48]
    [49, 53, 50, 49, 52, 55, 0, 32] 48 [] [117, 115, 116, 97, 114] [48, 48]
    [114, 111, 111, 116] [114, 111, 111, 116] [48, 48, 48, 48, 48, 48, 48]
    [48, 48, 48, 48, 48, 48, 48] (List.replicate 155 195) []

/-- The sample header with byte 262 (the last magic byte) set to `m`, the
version member set to the two bytes `v0`, `v1`, and the checksum member
recomputed from the unsigned sum. -/
def version_header (m v0 v1 : uint8_t) : tar_header_t :=
  (((sample_header.set_byte 262 m).set_byte 263 v0).set_byte 264 v1).set_checksum
    (checksum_field (unsigned_sum (((sample_header.set_byte 262 m).set_byte 263 v0).set_byte 264 v1)))

/-! ## The caller (main.c, lines 105-117 and 156-158) and the mode masks (tar.h, lines 25-33) -/

/-- The payload-skip length computed by the archive walker:
`size = tar_get_size(&header); size = (size + 511) & (~(uint64_t) 511);`
in 64-bit unsigned arithmetic. -/
def payload_skip_length (h : tar_header_t) : Nat :=
  ((tar_get_size h + 511) % 2 ^ 64) &&& (2 ^ 64 - 1 - 511)

def TAR_MODE_USER_READ : Nat := 1 <<< 8
def TAR_MODE_USER_WRITE : Nat := 1 <<< 7
def TAR_MODE_USER_EXECUTE : Nat := 1 <<< 6
def TAR_MODE_GROUP_READ : Nat := 1 <<< 5
def TAR_MODE_GROUP_WRITE : Nat := 1 <<< 4
def TAR_MODE_GROUP_EXECUTE : Nat := 1 <<< 3
def TAR_MODE_OTHER_READ : Nat := 1 <<< 2
def TAR_MODE_OTHER_WRITE : Nat := 1 <<< 1
def TAR_MODE_OTHER_EXECUTE : Nat := 1 <<< 0

/-- The test `(mode & mask) ? ... : ...` of main.c on the `int` returned by `tar_get_mode`. -/
def mode_test (mode : Int) (mask : Nat) : Bool :=
  decide (Int.land mode (mask : Int) ≠ 0)

/-- An 8-byte mode member holding `m`: seven zero-padded octal digits, then a NUL. -/
def mode_field (m : Nat) : List uint8_t :=
  [octal_digit_byte (m / 262144), octal_digit_byte (m / 32768), octal_digit_byte (m / 4096),
   octal_digit_byte (m / 512), octal_digit_byte (m / 64), octal_digit_byte (m / 8),
   octal_digit_byte m, 0]

/-- The sample header with size "00000000000" and the matching checksum
field "012525" NUL space. -/
def zero_size_header : tar_header_t :=
  (((sample_header.set_byte 133 48).set_byte 134 48).set_byte 152 50).set_byte 153 53

/-! ## Access traces: the buffer indices stored to and the header offsets read -/

/-- The indices of `buffer->str` that `memcpy(buffer->str + off, src, n)` stores to. -/
def memcpy_writes (off n : Nat) : List Nat := List.range' off n

/-- The offsets that `memcpy(dst, header + pos, n)` reads. -/
def memcpy_reads (pos n : Nat) : List Nat := List.range' pos n

/-- The offsets that `memcmp(header + pos, literal, n)` may read: the `n` bytes compared. -/
def memcmp_reads (pos n : Nat) : List Nat := List.range' pos n

/-- The header offsets read by the loop of `strnlen_` started at offset `pos`
with `remaining` iterations left: each iteration reads the byte at `pos`, and
the loop ends after it has read a NUL. -/
def strnlen__reads (h : tar_header_t) : Nat → Nat → List Nat
  | _, 0 => []
  | pos, remaining + 1 =>
    pos :: (if (h.byte pos).val = 0 then [] else strnlen__reads h (pos + 1) remaining)

/-- The header offsets read by the loop of `parse_octal` started at offset
`pos` with `remaining` bytes before `buffer_e`: each iteration reads `*field++`,
and the loop ends after it has read a byte that is neither a space nor an
octal digit. -/
def parse_octal_reads (h : tar_header_t) : Nat → Nat → List Nat
  | _, 0 => []
  | pos, remaining + 1 =>
    pos :: (if (h.byte pos).val = 32 ∨ (48 ≤ (h.byte pos).val ∧ (h.byte pos).val ≤ 55)
      then parse_octal_reads h (pos + 1) remaining else [])

/-- The indices of `buffer->str` stored to by `parse_string(field, n_bytes, buffer)`:
the `len` bytes copied, then the terminator at index `len`. -/
def parse_string_writes (field : List uint8_t) (n_bytes : Nat) : List Nat :=
  memcpy_writes 0 (strnlen_ field n_bytes) ++ [strnlen_ field n_bytes]

/-- The header offsets read by `parse_string` on the member at offset `off` of width `n_bytes`. -/
def parse_string_reads (h : tar_header_t) (off n_bytes : Nat) : List Nat :=
  strnlen__reads h off n_bytes ++ memcpy_reads off (strnlen_ (h.member off n_bytes) n_bytes)

/-- The indices of `buffer->str` stored to by `tar_get_filename`: the prefix
bytes from index 0, the name bytes from index `prefix_len`, and the terminator
at index `prefix_len + suffix_len`. -/
def tar_get_filename_writes (h : tar_header_t) : List Nat :=
  memcpy_writes 0 (strnlen_ (tar_header_t.filename_prefix h) 155) ++
  memcpy_writes (strnlen_ (tar_header_t.filename_prefix h) 155) (strnlen h.filename 100) ++
  [strnlen_ (tar_header_t.filename_prefix h) 155 + strnlen h.filename 100]

/-- The header offsets read by `tar_get_filename`. -/
def tar_get_filename_reads (h : tar_header_t) : List Nat :=
  strnlen__reads h 345 155 ++ memcpy_reads 345 (strnlen_ (tar_header_t.filename_prefix h) 155) ++
  strnlen__reads h 0 100 ++ memcpy_reads 0 (strnlen h.filename 100)

/-- The header offsets read by `tar_validate_header`, along the path it takes:
the magic comparison, `magic[5]`, the version scan, the four checksum loops
and the checksum scan, up to the first `return`. -/
def tar_validate_header_reads (h : tar_header_t) : List Nat :=
  memcmp_reads 257 5 ++
  (if memcmp h.magic ustar 5 ≠ 0 then []
   else
    [262] ++
    (if (h.magic.getD 5 0).val ≠ 0 ∧ (h.magic.getD 5 0).val ≠ 32 then []
     else
      parse_octal_reads h 263 2 ++
      (if parse_octal h.version 2 ≠ 0 then []
       else
        List.range' 0 148 ++ List.range' 156 344 ++ List.range' 0 148 ++ List.range' 156 344 ++
        parse_octal_reads h 148 8)))

/-- The header offsets read by the accessors of tar.c, one after the other:
mode, uid, gid, size, modify time, type, file name, link target, owner name,
group name, device major and device minor. -/
def accessor_reads (h : tar_header_t) : List Nat :=
  parse_octal_reads h 100 8 ++ parse_octal_reads h 108 8 ++ parse_octal_reads h 116 8 ++
  parse_octal_reads h 124 12 ++ parse_octal_reads h 136 12 ++ [156] ++
  tar_get_filename_reads h ++ parse_string_reads h 157 100 ++ parse_string_reads h 265 32 ++
  parse_string_reads h 297 32 ++ parse_octal_reads h 329 8 ++ parse_octal_reads h 337 8

/-! ## Lemmas on parse_octal -/

theorem parse_octal_loop_eq_foldl (xs : List uint8_t) (v : Nat) :
    parse_octal_loop xs (v % 2 ^ 64) =
      (((octal_scan_span xs).filter (fun b => !is_space b)).foldl
        (fun acc d => 8 * acc + (d.val - 48)) v) % 2 ^ 64 := by
  induction xs generalizing v with
  | nil => simp [parse_octal_loop, octal_scan_span]
  | cons b rest ih =>
    unfold parse_octal_loop
    by_cases hs : b.val = 32
    · have h1 : is_space b = true := by simp [is_space, hs]
      simp only [hs, if_true]
      rw [ih v]
      simp [octal_scan_span, List.takeWhile_cons, h1]
    · by_cases hd : 48 ≤ b.val ∧ b.val ≤ 55
      · have h1 : is_space b = false := by simp [is_space, hs]
        have h2 : is_octal_digit b = true := by simp [is_octal_digit, hd]
        have hmod : ((8 * (v % 2 ^ 64)) % 2 ^ 64 + (b.val - 48)) % 2 ^ 64
            = (8 * v + (b.val - 48)) % 2 ^ 64 := by omega
        simp only [hs, if_false, hd, and_self, if_true, hmod]
        rw [ih (8 * v + (b.val - 48))]
        simp [octal_scan_span, List.takeWhile_cons, h1, h2]
      · have h1 : is_space b = false := by simp [is_space, hs]
        have h2 : is_octal_digit b = false := by simp [is_octal_digit, hd]
        simp only [hs, if_false, hd]
        simp [octal_scan_span, List.takeWhile_cons, h1, h2]

theorem parse_octal_loop_zero_eq_ref (xs : List uint8_t) :
    parse_octal_loop xs 0 = parse_octal_ref xs := by
  have h := parse_octal_loop_eq_foldl xs 0
  simpa [parse_octal_ref, octal_numeral_value] using h

theorem parse_octal_length (field : List uint8_t) :
    parse_octal field field.length = parse_octal_ref field := by
  unfold parse_octal
  rw [List.take_length, parse_octal_loop_zero_eq_ref]

theorem parse_octal_loop_stop (xs ys : List uint8_t) (stop : uint8_t) (v : Nat)
    (hs : stop.val ≠ 32) (hd : ¬ (48 ≤ stop.val ∧ stop.val ≤ 55)) :
    parse_octal_loop (xs ++ stop :: ys) v = parse_octal_loop xs v := by
  induction xs generalizing v with
  | nil => simp [parse_octal_loop, hs, hd]
  | cons b rest ih =>
    simp only [List.cons_append, parse_octal_loop]
    split
    · exact ih v
    · split
      · exact ih _
      · rfl

theorem parse_octal_loop_no_digit (xs : List uint8_t) (v : Nat)
    (h : ∀ b ∈ xs, ¬ (48 ≤ b.val ∧ b.val ≤ 55)) : parse_octal_loop xs v = v := by
  induction xs with
  | nil => rfl
  | cons b rest ih =>
    have hb := h b (List.mem_cons_self b rest)
    have hr : ∀ c ∈ rest, ¬ (48 ≤ c.val ∧ c.val ≤ 55) :=
      fun c hc => h c (List.mem_cons_of_mem b hc)
    simp only [parse_octal_loop, hb, if_false]
    split
    · exact ih hr
    · rfl

/-! ## Lemmas on the octal field writer -/

theorem octal_digits_lt (fuel v : Nat) : ∀ d ∈ octal_digits fuel v, d < 8 := by
  induction fuel generalizing v with
  | zero => simp [octal_digits]
  | succ n ih =>
    intro d hd
    unfold octal_digits at hd
    split at hd
    · simp only [List.mem_singleton] at hd; omega
    · rcases List.mem_append.mp hd with h | h
      · exact ih _ d h
      · simp only [List.mem_singleton] at h; omega

theorem octal_digits_length (fuel v : Nat) (hv : v < 8 ^ fuel) (w : Nat) (hw : 1 ≤ w)
    (hvw : v < 8 ^ w) : (octal_digits fuel v).length ≤ w := by
  induction fuel generalizing v w with
  | zero => simp [octal_digits]
  | succ n ih =>
    unfold octal_digits
    split
    · simpa using hw
    · rename_i h8
      obtain ⟨w1, rfl⟩ : ∃ w1, w = w1 + 1 := ⟨w - 1, by omega⟩
      have hw1 : 1 ≤ w1 := by
        rcases Nat.eq_zero_or_pos w1 with h0 | h0
        · subst h0; simp at hvw; omega
        · exact h0
      have h1 : v / 8 < 8 ^ n := by
        rw [Nat.div_lt_iff_lt_mul (by norm_num)]; rw [pow_succ] at hv; exact hv
      have h2 : v / 8 < 8 ^ w1 := by
        rw [Nat.div_lt_iff_lt_mul (by norm_num)]; rw [pow_succ] at hvw; exact hvw
      have := ih (v / 8) h1 w1 hw1 h2
      simp only [List.length_append, List.length_singleton]
      omega

theorem octal_digits_value (fuel v : Nat) (hv : v < 8 ^ fuel) (acc : Nat) :
    (octal_digits fuel v).foldl (fun a d => 8 * a + d) acc = 8 ^ (octal_digits fuel v).length * acc + v := by
  induction fuel generalizing v acc with
  | zero =>
    have h0 : v = 0 := by simpa using hv
    simp [octal_digits, h0]
  | succ n ih =>
    unfold octal_digits
    split
    · simp
    · have h1 : v / 8 < 8 ^ n := by
        rw [Nat.div_lt_iff_lt_mul (by norm_num)]; rw [pow_succ] at hv; exact hv
      simp only [List.foldl_append, List.foldl_cons, List.foldl_nil, List.length_append,
        List.length_singleton]
      rw [ih (v / 8) h1 acc, pow_succ]
      have := Nat.div_add_mod v 8
      ring_nf
      omega

theorem octal_digits_eq_digits (fuel v : Nat) (h0 : v ≠ 0) (hv : v < 8 ^ fuel) :
    octal_digits fuel v = (Nat.digits 8 v).reverse := by
  induction fuel generalizing v with
  | zero => simp at hv; omega
  | succ n ih =>
    unfold octal_digits
    split
    · rename_i h8
      rw [Nat.digits_of_lt 8 v h0 h8]
      rfl
    · rename_i h8
      have h1 : v / 8 < 8 ^ n := by
        rw [Nat.div_lt_iff_lt_mul (by norm_num)]; rw [pow_succ] at hv; exact hv
      have h2 : v / 8 ≠ 0 := by omega
      rw [ih (v / 8) h2 h1, Nat.digits_def' (by norm_num : 1 < 8) (by omega : 0 < v)]
      simp

theorem octal_numeral_eq_digits (v : Nat) (h0 : v ≠ 0) :
    octal_numeral v = (Nat.digits 8 v).reverse.map octal_digit_byte := by
  have h1 : v < 8 ^ (v + 1) :=
    lt_of_lt_of_le (Nat.lt_pow_self (by norm_num) v) (Nat.pow_le_pow_right (by norm_num) (by omega))
  rw [octal_numeral, octal_digits_eq_digits (v + 1) v h0 h1]

theorem octal_numeral_length (w v : Nat) (hw : 1 ≤ w) (hv : v < 8 ^ w) :
    (octal_numeral v).length ≤ w := by
  have h1 : v < 8 ^ (v + 1) :=
    lt_of_lt_of_le (Nat.lt_pow_self (by norm_num) v) (Nat.pow_le_pow_right (by norm_num) (by omega))
  simpa [octal_numeral] using octal_digits_length (v + 1) v h1 w hw hv

theorem octal_field_length (w v : Nat) (hw : 1 ≤ w) (hv : v < 8 ^ w) :
    (octal_field w v).length = w := by
  have := octal_numeral_length w v hw hv
  simp only [octal_field, List.length_append, List.length_replicate]
  omega

theorem octal_digit_byte_val (d : Nat) (hd : d < 8) : (octal_digit_byte d).val = 48 + d := by
  simp [octal_digit_byte, Nat.mod_eq_of_lt hd]

theorem octal_field_scan (w v : Nat) :
    (octal_scan_span (octal_field w v)).filter (fun b => !is_space b) = octal_numeral v := by
  have hdig : ∀ b ∈ octal_numeral v, is_space b = false ∧ is_octal_digit b = true := by
    intro b hb
    simp only [octal_numeral, List.mem_map] at hb
    obtain ⟨d, hd, rfl⟩ := hb
    have h8 := octal_digits_lt _ _ d hd
    have hv := octal_digit_byte_val d h8
    constructor
    · simp [is_space, hv]; omega
    · simp [is_octal_digit, hv]; omega
  have hall : ∀ b ∈ octal_field w v, (is_space b || is_octal_digit b) = true := by
    intro b hb
    simp only [octal_field, List.mem_append, List.mem_replicate] at hb
    rcases hb with ⟨_, rfl⟩ | hb
    · rfl
    · simp [(hdig b hb).2]
  have hspan : octal_scan_span (octal_field w v) = octal_field w v := by
    unfold octal_scan_span
    exact List.takeWhile_eq_self_iff.mpr hall
  rw [hspan, octal_field, List.filter_append]
  have h1 : (List.replicate (w - (octal_numeral v).length) (32 : uint8_t)).filter
      (fun b => !is_space b) = [] := by
    rw [List.filter_eq_nil_iff]
    intro b hb
    rw [List.mem_replicate] at hb
    rw [hb.2]
    decide
  have h2 : (octal_numeral v).filter (fun b => !is_space b) = octal_numeral v := by
    rw [List.filter_eq_self]
    intro b hb
    simp [(hdig b hb).1]
  rw [h1, h2, List.nil_append]

theorem octal_numeral_value_numeral (v : Nat) : octal_numeral_value (octal_numeral v) = v := by
  have h1 : v < 8 ^ (v + 1) :=
    lt_of_lt_of_le (Nat.lt_pow_self (by norm_num) v) (Nat.pow_le_pow_right (by norm_num) (by omega))
  unfold octal_numeral_value octal_numeral
  rw [List.foldl_map]
  have hext : (octal_digits (v + 1) v).foldl (fun a d => 8 * a + ((octal_digit_byte d).val - 48)) 0
      = (octal_digits (v + 1) v).foldl (fun a d => 8 * a + d) 0 := by
    apply List.foldl_ext
    intro a d hd
    rw [octal_digit_byte_val d (octal_digits_lt _ _ d hd)]
    omega
  rw [hext, octal_digits_value (v + 1) v h1 0]
  simp

/-! ## Claims on parse_octal -/

/-- C4: for every byte sequence, `parse_octal` over its whole length (and over
any leading `n` bytes) returns the reference value: the longest prefix of
spaces and octal digits, spaces deleted, read in base 8, modulo `2 ^ 64`.
Bytes at or after a stop byte do not influence the result, and the result is
always a 64-bit value (the function is total, there is no error result). -/
theorem parse_octal_eq_reference :
    (∀ field : List uint8_t, parse_octal field field.length = parse_octal_ref field) ∧
    (∀ (field : List uint8_t) (n : Nat), parse_octal field n = parse_octal_ref (field.take n)) ∧
    (∀ (xs ys : List uint8_t) (stop : uint8_t),
      stop.val ≠ 32 → ¬ (48 ≤ stop.val ∧ stop.val ≤ 55) →
        parse_octal (xs ++ stop :: ys) (xs ++ stop :: ys).length = parse_octal xs xs.length) ∧
    (∀ (field : List uint8_t) (n : Nat), parse_octal field n < 2 ^ 64) := by
  refine ⟨parse_octal_length, ?_, ?_, ?_⟩
  · intro field n
    exact parse_octal_loop_zero_eq_ref (field.take n)
  · intro xs ys stop hs hd
    unfold parse_octal
    rw [List.take_length, List.take_length]
    exact parse_octal_loop_stop xs ys stop 0 hs hd
  · intro field n
    have h := parse_octal_loop_zero_eq_ref (field.take n)
    unfold parse_octal
    rw [h]
    exact Nat.mod_lt _ (by norm_num)

/-- Witness of C4 at the field "1 7z5": the scan stops at `z`, the value is 15,
and the byte after the stop byte is not read. -/
theorem parse_octal_eq_reference_witness :
    parse_octal ([49, 32, 55] ++ (122 : uint8_t) :: [53]) ([49, 32, 55] ++ (122 : uint8_t) :: [53]).length
      = parse_octal [49, 32, 55] ([49, 32, 55] : List uint8_t).length ∧
    parse_octal [49, 32, 55, 122, 53] 5 = 15 :=
  ⟨parse_octal_eq_reference.2.2.1 [49, 32, 55] [53] 122 (by decide) (by decide), by decide⟩

/-- C5: for every width `1 ≤ w ≤ 21` and every `v < 8 ^ w`, the minimal-width
octal numeral of `v`, left-padded with spaces to `w` bytes, is a field of
exactly `w` bytes on which `parse_octal` returns `v`. -/
theorem parse_octal_round_trip (w v : Nat) (hw1 : 1 ≤ w) (hw : w ≤ 21) (hv : v < 8 ^ w) :
    (octal_field w v).length = w ∧ parse_octal (octal_field w v) w = v := by
  have hlen := octal_field_length w v hw1 hv
  refine ⟨hlen, ?_⟩
  have h := parse_octal_length (octal_field w v)
  rw [hlen] at h
  rw [h, parse_octal_ref, octal_field_scan, octal_numeral_value_numeral]
  apply Nat.mod_eq_of_lt
  calc v < 8 ^ w := hv
    _ ≤ 8 ^ 21 := Nat.pow_le_pow_right (by norm_num) hw
    _ < 2 ^ 64 := by norm_num

/-- Witness of C5: 42 in a field of 8 bytes is six spaces then "52", and decodes to 42. -/
theorem parse_octal_round_trip_witness :
    octal_field 8 42 = [32, 32, 32, 32, 32, 32, 53, 50] ∧
    ((octal_field 8 42).length = 8 ∧ parse_octal (octal_field 8 42) 8 = 42) :=
  ⟨by decide, parse_octal_round_trip 8 42 (by decide) (by decide) (by decide)⟩

/-- C6: on every byte range that contains no octal digit byte, `parse_octal`
returns 0; in particular on the empty range, on a range of spaces only, and on
a range of bytes that are neither spaces nor octal digits. -/
theorem parse_octal_no_digit_zero :
    (∀ (field : List uint8_t) (n : Nat),
      (∀ b ∈ field.take n, ¬ (48 ≤ b.val ∧ b.val ≤ 55)) → parse_octal field n = 0) ∧
    (∀ n : Nat, parse_octal [] n = 0) ∧
    (∀ k n : Nat, parse_octal (List.replicate k (32 : uint8_t)) n = 0) := by
  refine ⟨?_, ?_, ?_⟩
  · intro field n h
    exact parse_octal_loop_no_digit _ 0 h
  · intro n
    simp [parse_octal, parse_octal_loop]
  · intro k n
    apply parse_octal_loop_no_digit
    intro b hb
    have hb2 := List.mem_of_mem_take hb
    rw [List.mem_replicate] at hb2
    rw [hb2.2]
    decide

/-- Witness of C6: the field "  x 9", which holds spaces, a letter and the
non-octal digit 9, decodes to 0. -/
theorem parse_octal_no_digit_zero_witness :
    parse_octal ([32, 32, 120, 32, 57] : List uint8_t) 5 = 0 :=
  parse_octal_no_digit_zero.1 [32, 32, 120, 32, 57] 5 (by decide)

/-! ## Sanity checks on the sample header -/

theorem sample_header_valid : tar_validate_header sample_header = true := by decide!

theorem sample_header_sums :
    checksum_unsigned sample_header = 5464 ∧ checksum_signed sample_header = 5464 ∧
    checksum_parsed sample_header = 5464 := by decide!

/-! ## Bounds on parse_octal -/

theorem octal_value_lt (ds : List uint8_t) (acc : Nat) (hd : ∀ d ∈ ds, d.val - 48 ≤ 7) :
    ds.foldl (fun a d => 8 * a + (d.val - 48)) acc < 8 ^ ds.length * (acc + 1) := by
  induction ds generalizing acc with
  | nil => simp
  | cons d rest ih =>
    have h1 := hd d (List.mem_cons_self d rest)
    have h2 := ih (8 * acc + (d.val - 48)) (fun c hc => hd c (List.mem_cons_of_mem d hc))
    simp only [List.foldl_cons, List.length_cons]
    calc List.foldl (fun a d => 8 * a + (d.val - 48)) (8 * acc + (d.val - 48)) rest
        < 8 ^ rest.length * (8 * acc + (d.val - 48) + 1) := h2
      _ ≤ 8 ^ rest.length * (8 * (acc + 1)) := Nat.mul_le_mul_left _ (by omega)
      _ = 8 ^ (rest.length + 1) * (acc + 1) := by ring

theorem parse_octal_ref_lt (xs : List uint8_t) : parse_octal_ref xs < 8 ^ xs.length := by
  have hd : ∀ d ∈ (octal_scan_span xs).filter (fun b => !is_space b), d.val - 48 ≤ 7 := by
    intro d hd
    rw [List.mem_filter] at hd
    have hp := List.mem_takeWhile_imp hd.1
    have hs := hd.2
    simp only [is_space, is_octal_digit, Bool.or_eq_true, decide_eq_true_eq,
      Bool.not_eq_true', decide_eq_false_iff_not] at hp hs
    omega
  have hv := octal_value_lt _ 0 hd
  have hl : ((octal_scan_span xs).filter (fun b => !is_space b)).length ≤ xs.length :=
    le_trans (List.length_filter_le _ _) (List.takeWhile_prefix _).length_le
  have hp : 8 ^ ((octal_scan_span xs).filter (fun b => !is_space b)).length ≤ 8 ^ xs.length :=
    Nat.pow_le_pow_right (by norm_num) hl
  unfold parse_octal_ref octal_numeral_value
  have hm := Nat.mod_le
    (List.foldl (fun acc d => 8 * acc + (d.val - 48)) 0
      ((octal_scan_span xs).filter (fun b => !is_space b))) (2 ^ 64)
  omega

theorem parse_octal_lt_pow (field : List uint8_t) (n : Nat) : parse_octal field n < 8 ^ n := by
  have h1 : parse_octal field n = parse_octal_ref (field.take n) :=
    parse_octal_loop_zero_eq_ref (field.take n)
  have h2 := parse_octal_ref_lt (field.take n)
  have h3 : 8 ^ (field.take n).length ≤ 8 ^ n :=
    Nat.pow_le_pow_right (by norm_num) (by simp)
  omega

/-! ## Claims on the mode and type accessors -/

/-- C8 as stated fails: on the valid header with mode field "0001755" the
function `tar_get_mode` returns 1005, which is not `parse_octal(mode, 8) mod 512`
(493) and is outside 0..511. -/
theorem tar_get_mode_not_masked :
    tar_validate_header sticky_header = true ∧
    tar_get_mode sticky_header = 1005 ∧
    tar_get_mode sticky_header ≠ ((parse_octal sticky_header.mode 8 % 512 : Nat) : Int) ∧
    ¬ (tar_get_mode sticky_header ≤ 511) := by decide!

/-- C8, amended: for every header `tar_get_mode` returns the whole octal decode
of the 8-byte mode field, unmasked; the conversion to `int` loses nothing and
the result is in `0 .. 8 ^ 8 - 1`. -/
theorem tar_get_mode_eq_parse_octal (h : tar_header_t) :
    tar_get_mode h = ((parse_octal h.mode 8 : Nat) : Int) ∧
    0 ≤ tar_get_mode h ∧ tar_get_mode h < 8 ^ 8 := by
  have hlt := parse_octal_lt_pow h.mode 8
  have hmod : parse_octal h.mode 8 % 2 ^ 32 = parse_octal h.mode 8 :=
    Nat.mod_eq_of_lt (lt_trans hlt (by norm_num))
  have heq : tar_get_mode h = ((parse_octal h.mode 8 : Nat) : Int) := by
    unfold tar_get_mode to_int
    rw [hmod, if_pos (lt_trans hlt (by norm_num))]
  refine ⟨heq, ?_, ?_⟩
  · rw [heq]; exact Int.ofNat_nonneg _
  · rw [heq]; exact_mod_cast hlt

/-- C9: `tar_get_type` returns the typeflag byte (offset 156) itself when it is
in `'0'..'6'` and `TAR_TYPE_UNSUPPORTED` for every other byte; the result is
always one of the eight declared enumerants. -/
theorem tar_get_type_spec (h : tar_header_t) :
    (48 ≤ (h.byte 156).val ∧ (h.byte 156).val ≤ 54 → tar_get_type h = (h.byte 156).val) ∧
    (¬ (48 ≤ (h.byte 156).val ∧ (h.byte 156).val ≤ 54) → tar_get_type h = TAR_TYPE_UNSUPPORTED) ∧
    tar_get_type h ∈ tar_type_enumerants := by
  have hb : h.type = h.byte 156 := rfl
  refine ⟨?_, ?_, ?_⟩
  · intro hr
    unfold tar_get_type
    rw [hb, if_pos hr]
  · intro hr
    unfold tar_get_type
    rw [hb, if_neg hr]
  · unfold tar_get_type
    rw [hb]
    split
    · rename_i hr
      obtain ⟨h1, h2⟩ := hr
      have hv : (h.byte 156).val = 48 ∨ (h.byte 156).val = 49 ∨ (h.byte 156).val = 50 ∨
          (h.byte 156).val = 51 ∨ (h.byte 156).val = 52 ∨ (h.byte 156).val = 53 ∨
          (h.byte 156).val = 54 := by omega
      rcases hv with hv | hv | hv | hv | hv | hv | hv <;> rw [hv] <;> decide
    · simp [tar_type_enumerants]

/-- Witness of C9: the typeflag `'7'` decodes to `TAR_TYPE_UNSUPPORTED`, and the
typeflag `'0'` of the sample header to `TAR_TYPE_NORMAL_FILE`. -/
theorem tar_get_type_spec_witness :
    tar_get_type type7_header = TAR_TYPE_UNSUPPORTED ∧
    tar_get_type sample_header = TAR_TYPE_NORMAL_FILE :=
  ⟨(tar_get_type_spec type7_header).2.1 (by decide!),
   ((tar_get_type_spec sample_header).1 (by decide!)).trans (by decide!)⟩

/-! ## Lemmas on the text primitives -/

theorem strnlen__take (s : List uint8_t) (n : Nat) :
    s.take (strnlen_ s n) = until_nul (s.take n) := by
  induction s generalizing n with
  | nil => cases n <;> simp [strnlen_, until_nul]
  | cons b rest ih =>
    cases n with
    | zero => simp [strnlen_, until_nul]
    | succ m =>
      unfold strnlen_
      by_cases hb : b.val = 0
      · simp [hb, until_nul, List.takeWhile_cons]
      · have := ih m
        simp only [until_nul] at this
        simp [hb, until_nul, List.takeWhile_cons, this]

theorem strnlen__le (s : List uint8_t) (n : Nat) :
    strnlen_ s n ≤ n ∧ strnlen_ s n ≤ s.length := by
  induction s generalizing n with
  | nil => cases n <;> simp [strnlen_]
  | cons b rest ih =>
    cases n with
    | zero => simp [strnlen_]
    | succ m =>
      unfold strnlen_
      have := ih m
      split
      · simp
      · simp only [List.length_cons]; omega

theorem strnlen_eq (s : List uint8_t) (n : Nat) : strnlen s n = strnlen_ s n := by
  induction s generalizing n with
  | nil => cases n <;> simp [strnlen_, strnlen]
  | cons b rest ih =>
    cases n with
    | zero => simp [strnlen_, strnlen]
    | succ m => simp [strnlen_, strnlen, ih m]

theorem strnlen__eq_length (s : List uint8_t) (n : Nat) (hn : s.length = n) :
    strnlen_ s n = (until_nul s).length := by
  subst hn
  have h1 := strnlen__take s s.length
  have h2 := strnlen__le s s.length
  rw [List.take_length] at h1
  rw [← h1, List.length_take]
  omega

theorem strnlen__take_full (s : List uint8_t) (n : Nat) (hn : s.length = n) :
    s.take (strnlen_ s n) = until_nul s := by
  subst hn
  have h1 := strnlen__take s s.length
  rwa [List.take_length] at h1

theorem until_nul_nonzero (s : List uint8_t) : ∀ b ∈ until_nul s, b.val ≠ 0 := by
  intro b hb
  have := List.mem_takeWhile_imp hb
  simpa using this

theorem until_nul_length_le (s : List uint8_t) : (until_nul s).length ≤ s.length :=
  (List.takeWhile_prefix _).length_le

theorem memcpy_length (dst : List uint8_t) (off : Nat) (src : List uint8_t) (n : Nat) :
    (memcpy dst off src n).length = dst.length := by
  induction n with
  | zero => rfl
  | succ k ih => simp [memcpy, ih]

theorem memcpy_eq (dst : List uint8_t) (off : Nat) (src : List uint8_t) (n : Nat)
    (hd : off + n ≤ dst.length) (hs : n ≤ src.length) :
    memcpy dst off src n = dst.take off ++ src.take n ++ dst.drop (off + n) := by
  induction n with
  | zero => simp [memcpy]
  | succ k ih =>
    have hk : k < src.length := by omega
    have hdk : off + k < dst.length := by omega
    unfold memcpy
    rw [ih (by omega) (by omega)]
    have hlen : (dst.take off ++ src.take k).length = off + k := by
      simp only [List.length_append, List.length_take]
      omega
    have ht : src.take (k + 1) = src.take k ++ [src[k]] := by
      rw [List.take_succ, List.getElem?_eq_getElem hk]
      rfl
    rw [List.set_append_right _ _ (by omega), hlen, Nat.sub_self,
      List.drop_eq_getElem_cons hdk, List.set_cons_zero, ht,
      List.getD_eq_getElem _ _ hk]
    simp only [List.append_assoc, List.singleton_append, Nat.add_assoc]

theorem set_terminator (text buf : List uint8_t) (hlen : text.length < buf.length) :
    (text ++ buf.drop text.length).set text.length 0 = text ++ 0 :: buf.drop (text.length + 1) := by
  rw [List.set_append_right _ _ (le_refl _), Nat.sub_self, List.drop_eq_getElem_cons hlen,
    List.set_cons_zero]

theorem c_string_of_text (text rest : List uint8_t) (hnz : ∀ b ∈ text, b.val ≠ 0) :
    c_string { str := text ++ 0 :: rest } = text := by
  unfold c_string
  rw [List.takeWhile_append_of_pos (by intro b hb; simpa using hnz b hb)]
  simp

theorem parse_string_eq (field : List uint8_t) (n : Nat) (buffer : tar_string_buffer_t)
    (hf : field.length = n) (hb : n < buffer.str.length) :
    (parse_string field n buffer).str =
      until_nul field ++ 0 :: buffer.str.drop ((until_nul field).length + 1) := by
  subst hf
  have hle := strnlen__le field field.length
  have htake := strnlen__take field field.length
  have hlen := strnlen__eq_length field field.length rfl
  rw [List.take_length] at htake
  unfold parse_string
  simp only
  rw [memcpy_eq _ _ _ _ (by omega) hle.2, htake]
  simp only [List.take_zero, List.nil_append, Nat.zero_add]
  rw [hlen]
  exact set_terminator _ _ (by have := until_nul_length_le field; omega)

theorem member_length (h : tar_header_t) (off w : Nat) (hw : off + w ≤ 512) :
    (h.member off w).length = w := by
  have := h.size_eq
  simp only [tar_header_t.member, List.length_take, List.length_drop]
  omega

theorem parse_string_spec (field : List uint8_t) (n : Nat) (buffer : tar_string_buffer_t)
    (hf : field.length = n) (hn : n ≤ 255) (hb : buffer.str.length = 256) :
    (parse_string field n buffer).str =
      until_nul field ++ 0 :: buffer.str.drop ((until_nul field).length + 1) ∧
    c_string (parse_string field n buffer) = until_nul field ∧
    (until_nul field).length ≤ n ∧
    (parse_string field n buffer).str.length = 256 := by
  have heq := parse_string_eq field n buffer hf (by omega)
  have hle := until_nul_length_le field
  refine ⟨heq, ?_, by omega, ?_⟩
  · have hc := c_string_of_text (until_nul field)
      (buffer.str.drop ((until_nul field).length + 1)) (until_nul_nonzero field)
    rw [← heq] at hc
    exact hc
  · rw [heq]
    simp only [List.length_append, List.length_cons, List.length_drop]
    omega

/-! ## Claims on the text accessors -/

/-- C7: for every header and every 256-byte buffer, `tar_get_filename` leaves
in the buffer `P ++ S` followed by one NUL (the bytes after it are untouched),
where `P` is the prefix member (offsets 345..499) up to its first NUL and `S`
the name member (offsets 0..99) up to its first NUL; the string read back is
`P ++ S` with nothing in between, and it is `S` when the prefix member begins
with a NUL. -/
theorem tar_get_filename_spec (h : tar_header_t) (buffer : tar_string_buffer_t)
    (hb : buffer.str.length = 256) :
    (tar_get_filename h buffer).str =
      until_nul (h.member 345 155) ++ until_nul (h.member 0 100) ++
        0 :: buffer.str.drop
          ((until_nul (h.member 345 155)).length + (until_nul (h.member 0 100)).length + 1) ∧
    c_string (tar_get_filename h buffer) =
      until_nul (h.member 345 155) ++ until_nul (h.member 0 100) ∧
    ((h.byte 345).val = 0 → c_string (tar_get_filename h buffer) = until_nul (h.member 0 100)) ∧
    (until_nul (h.member 345 155)).length ≤ 155 ∧ (until_nul (h.member 0 100)).length ≤ 100 := by
  have hpl := member_length h 345 155 (by norm_num)
  have hsl := member_length h 0 100 (by norm_num)
  have hP := until_nul_length_le (h.member 345 155)
  have hS := until_nul_length_le (h.member 0 100)
  have hPt := strnlen__take_full (h.member 345 155) 155 hpl
  have hSt := strnlen__take_full (h.member 0 100) 100 hsl
  have hPn := strnlen__eq_length (h.member 345 155) 155 hpl
  have hSn := strnlen__eq_length (h.member 0 100) 100 hsl
  have hPle := strnlen__le (h.member 345 155) 155
  have hSle := strnlen__le (h.member 0 100) 100
  have hstr : (tar_get_filename h buffer).str =
      until_nul (h.member 345 155) ++ until_nul (h.member 0 100) ++
        0 :: buffer.str.drop
          ((until_nul (h.member 345 155)).length + (until_nul (h.member 0 100)).length + 1) := by
    unfold tar_get_filename
    simp only [tar_header_t.filename_prefix, tar_header_t.filename, strnlen_eq]
    rw [memcpy_eq buffer.str 0 _ _ (by omega) hPle.2, hPt]
    simp only [List.take_zero, List.nil_append, Nat.zero_add]
    rw [memcpy_eq _ _ _ _ (by simp only [List.length_append, List.length_drop]; omega) hSle.2,
      hSt, hPn, hSn]
    rw [List.take_left' rfl, List.drop_append_eq_append_drop, List.drop_drop,
      List.drop_eq_nil_of_le (by omega : (until_nul (h.member 345 155)).length ≤
        (until_nul (h.member 345 155)).length + (until_nul (h.member 0 100)).length)]
    simp only [List.nil_append]
    have e1 : (until_nul (h.member 345 155)).length +
        ((until_nul (h.member 345 155)).length + (until_nul (h.member 0 100)).length -
          (until_nul (h.member 345 155)).length) =
        (until_nul (h.member 345 155) ++ until_nul (h.member 0 100)).length := by
      simp only [List.length_append]; omega
    have e2 : (until_nul (h.member 345 155)).length + (until_nul (h.member 0 100)).length =
        (until_nul (h.member 345 155) ++ until_nul (h.member 0 100)).length := by
      simp only [List.length_append]
    rw [e1, e2]
    exact set_terminator _ _ (by simp only [List.length_append]; omega)
  have hnz : ∀ b ∈ until_nul (h.member 345 155) ++ until_nul (h.member 0 100), b.val ≠ 0 := by
    intro b hb
    rcases List.mem_append.mp hb with hb | hb
    · exact until_nul_nonzero _ b hb
    · exact until_nul_nonzero _ b hb
  have hc : c_string (tar_get_filename h buffer) =
      until_nul (h.member 345 155) ++ until_nul (h.member 0 100) := by
    have := c_string_of_text _ (buffer.str.drop
      ((until_nul (h.member 345 155)).length + (until_nul (h.member 0 100)).length + 1)) hnz
    rw [← hstr] at this
    exact this
  refine ⟨hstr, hc, ?_, by omega, by omega⟩
  intro h0
  have hP0 : until_nul (h.member 345 155) = [] := by
    have hlt : 345 < h.bytes.length := by rw [h.size_eq]; norm_num
    have hm : h.member 345 155 = h.byte 345 :: (h.bytes.drop 346).take 154 := by
      simp only [tar_header_t.member, tar_header_t.byte]
      rw [List.drop_eq_getElem_cons hlt, List.getD_eq_getElem _ _ hlt, List.take_succ_cons]
    rw [hm, until_nul, List.takeWhile_cons_of_neg (by simp [h0])]
  rw [hc, hP0, List.nil_append]

/-- Witness of C7: on the sample header (prefix "dir", name "a.txt") and a
buffer of 256 bytes the string read back is "dira.txt". -/
theorem tar_get_filename_spec_witness :
    c_string (tar_get_filename sample_header sample_buffer) =
      [100, 105, 114, 97, 46, 116, 120, 116] :=
  ((tar_get_filename_spec sample_header sample_buffer (by decide!)).2.1).trans (by decide!)

/-- C10: for every header and every 256-byte buffer, each of
`tar_get_linked_filename`, `tar_get_owner_name` and `tar_get_group_name` leaves
in the buffer the bytes of its member (offsets 157..256, 265..296, 297..328)
that precede the member's first NUL, or the whole member when it has none,
followed by one NUL; the string read back is exactly those bytes, it holds no
NUL, and it is no longer than the member (100, 32, 32). -/
theorem text_accessors_spec (h : tar_header_t) (buffer : tar_string_buffer_t)
    (hb : buffer.str.length = 256) :
    ((tar_get_linked_filename h buffer).str =
        until_nul (h.member 157 100) ++
          0 :: buffer.str.drop ((until_nul (h.member 157 100)).length + 1) ∧
      c_string (tar_get_linked_filename h buffer) = until_nul (h.member 157 100) ∧
      (until_nul (h.member 157 100)).length ≤ 100) ∧
    ((tar_get_owner_name h buffer).str =
        until_nul (h.member 265 32) ++
          0 :: buffer.str.drop ((until_nul (h.member 265 32)).length + 1) ∧
      c_string (tar_get_owner_name h buffer) = until_nul (h.member 265 32) ∧
      (until_nul (h.member 265 32)).length ≤ 32) ∧
    ((tar_get_group_name h buffer).str =
        until_nul (h.member 297 32) ++
          0 :: buffer.str.drop ((until_nul (h.member 297 32)).length + 1) ∧
      c_string (tar_get_group_name h buffer) = until_nul (h.member 297 32) ∧
      (until_nul (h.member 297 32)).length ≤ 32) ∧
    (∀ field : List uint8_t, ∀ b ∈ until_nul field, b.val ≠ 0) := by
  have h1 := parse_string_spec (h.member 157 100) 100 buffer
    (member_length h 157 100 (by norm_num)) (by norm_num) hb
  have h2 := parse_string_spec (h.member 265 32) 32 buffer
    (member_length h 265 32 (by norm_num)) (by norm_num) hb
  have h3 := parse_string_spec (h.member 297 32) 32 buffer
    (member_length h 297 32 (by norm_num)) (by norm_num) hb
  exact ⟨⟨h1.1, h1.2.1, h1.2.2.1⟩, ⟨h2.1, h2.2.1, h2.2.2.1⟩, ⟨h3.1, h3.2.1, h3.2.2.1⟩,
    until_nul_nonzero⟩

/-- Witness of C10: on the sample header and a buffer of 256 bytes the owner
name read back is "root" and the link target is the empty string. -/
theorem text_accessors_spec_witness :
    c_string (tar_get_owner_name sample_header sample_buffer) = [114, 111, 111, 116] ∧
    c_string (tar_get_linked_filename sample_header sample_buffer) = [] :=
  ⟨((text_accessors_spec sample_header sample_buffer (by decide!)).2.1.2.1).trans (by decide!),
   ((text_accessors_spec sample_header sample_buffer (by decide!)).1.2.1).trans (by decide!)⟩

/-! ## Lemmas on the header bytes -/

theorem slice_congr (l1 l2 : List uint8_t) (off w : Nat)
    (h : ∀ k, off ≤ k → k < off + w → l1[k]? = l2[k]?) :
    (l1.drop off).take w = (l2.drop off).take w := by
  apply List.ext_getElem?
  intro k
  rw [List.getElem?_take, List.getElem?_take, List.getElem?_drop, List.getElem?_drop]
  split
  · exact h (off + k) (by omega) (by omega)
  · rfl

theorem member_set_byte (h : tar_header_t) (i : Nat) (v : uint8_t) (off w : Nat)
    (hi : i < off ∨ off + w ≤ i) : (h.set_byte i v).member off w = h.member off w := by
  unfold tar_header_t.member tar_header_t.set_byte
  apply slice_congr
  intro k h1 h2
  exact List.getElem?_set_ne (by omega)

theorem byte_set_byte_ne (h : tar_header_t) (i j : Nat) (v : uint8_t) (hij : i ≠ j) :
    (h.set_byte i v).byte j = h.byte j := by
  simp only [tar_header_t.byte, tar_header_t.set_byte, List.getD_eq_getElem?_getD,
    List.getElem?_set_ne hij]

theorem set_checksum_getElem? (h : tar_header_t) (f : List uint8_t) (k : Nat)
    (hk : k < 148 ∨ 156 ≤ k) : (h.set_checksum f).bytes[k]? = h.bytes[k]? := by
  have hs := h.size_eq
  have hp : (pad_field 8 f).length = 8 := by simp [pad_field]
  have ht : (h.bytes.take 148).length = 148 := by rw [List.length_take]; omega
  unfold tar_header_t.set_checksum
  simp only
  rcases hk with hk | hk
  · rw [List.append_assoc, List.getElem?_append_left (by omega), List.getElem?_take_of_lt hk]
  · rw [List.getElem?_append_right (by simp only [List.length_append]; omega),
      List.getElem?_drop]
    simp only [List.length_append, ht, hp]
    congr 1
    omega

theorem member_set_checksum (h : tar_header_t) (f : List uint8_t) (off w : Nat)
    (hi : off + w ≤ 148 ∨ 156 ≤ off) : (h.set_checksum f).member off w = h.member off w := by
  unfold tar_header_t.member
  apply slice_congr
  intro k h1 h2
  exact set_checksum_getElem? h f k (by omega)

theorem byte_set_checksum (h : tar_header_t) (f : List uint8_t) (k : Nat)
    (hk : k < 148 ∨ 156 ≤ k) : (h.set_checksum f).byte k = h.byte k := by
  simp only [tar_header_t.byte, List.getD_eq_getElem?_getD, set_checksum_getElem? h f k hk]

theorem checksum_set_checksum (h : tar_header_t) (f : List uint8_t) (hf : f.length = 8) :
    (h.set_checksum f).member 148 8 = f := by
  have hs := h.size_eq
  have hp : pad_field 8 f = f := by
    unfold pad_field
    rw [List.take_append_of_le_length (by omega), ← hf, List.take_length]
  have ht : (h.bytes.take 148).length = 148 := by rw [List.length_take]; omega
  unfold tar_header_t.member tar_header_t.set_checksum
  simp only
  rw [hp, List.append_assoc, List.drop_left' ht, List.take_left' hf]

/-! ## Lemmas on the validator -/

theorem memcmp_eq_zero_iff (n : Nat) : ∀ (a b : List uint8_t), n ≤ a.length → n ≤ b.length →
    (memcmp a b n = 0 ↔ a.take n = b.take n) := by
  induction n with
  | zero => intro a b _ _; cases a <;> cases b <;> simp [memcmp]
  | succ k ih =>
    intro a b ha hb
    cases a with
    | nil => simp at ha
    | cons x xs =>
      cases b with
      | nil => simp at hb
      | cons y ys =>
        simp only [List.length_cons] at ha hb
        unfold memcmp
        by_cases hxy : x = y
        · simp only [hxy, if_true, List.take_succ_cons, List.cons.injEq, true_and]
          exact ih xs ys (by omega) (by omega)
        · have hval : (x.val : Int) - (y.val : Int) ≠ 0 := by
            intro hz
            apply hxy
            apply Fin.ext
            omega
          simp [hxy, hval]

theorem magic_getD (h : tar_header_t) : h.magic.getD 5 0 = h.byte 262 := by
  simp only [tar_header_t.magic, tar_header_t.member, tar_header_t.byte,
    List.getD_eq_getElem?_getD, List.getElem?_take, List.getElem?_drop]
  rfl

theorem magic_take (h : tar_header_t) : h.magic.take 5 = h.member 257 5 := by
  simp only [tar_header_t.magic, tar_header_t.member, List.take_take]
  rfl

theorem checksum_unsigned_loop_eq (r : List uint8_t) (acc : Nat) :
    checksum_unsigned_loop r (acc % 2 ^ 32) = (acc + (r.map (fun b => b.val)).sum) % 2 ^ 32 := by
  induction r generalizing acc with
  | nil => simp [checksum_unsigned_loop]
  | cons b rest ih =>
    have hstep : (acc % 2 ^ 32 + b.val) % 2 ^ 32 = (acc + b.val) % 2 ^ 32 := by omega
    have := ih (acc + b.val)
    simp only [checksum_unsigned_loop] at this ⊢
    simp only [List.foldl_cons, List.map_cons, List.sum_cons, hstep, this]
    congr 1
    omega

theorem checksum_unsigned_eq (h : tar_header_t) :
    checksum_unsigned h = unsigned_sum h % 2 ^ 32 := by
  unfold checksum_unsigned unsigned_sum summed_bytes
  have h1 := checksum_unsigned_loop_eq (h.member 0 148) 256
  rw [show (256 : Nat) % 2 ^ 32 = 256 from by norm_num] at h1
  rw [h1, checksum_unsigned_loop_eq, List.map_append, List.sum_append]
  congr 1
  omega

theorem int8_t_as_uint32_cases (b : uint8_t) :
    ((int8_t_as_uint32 b : Nat) : Int) = int8_t_val b ∨
    ((int8_t_as_uint32 b : Nat) : Int) = int8_t_val b + 2 ^ 32 := by
  unfold int8_t_as_uint32 int8_t_val
  have := b.isLt
  split
  · left; rfl
  · right
    push_cast
    omega

theorem checksum_signed_loop_eq (r : List uint8_t) (acc : Nat) (z : Int)
    (hz : (acc : Int) % 2 ^ 32 = z % 2 ^ 32) :
    ((checksum_signed_loop r acc : Nat) : Int) % 2 ^ 32 = (z + (r.map int8_t_val).sum) % 2 ^ 32 := by
  induction r generalizing acc z with
  | nil => simpa [checksum_signed_loop] using hz
  | cons b rest ih =>
    have hstep : (((acc + int8_t_as_uint32 b) % 2 ^ 32 : Nat) : Int) % 2 ^ 32
        = (z + int8_t_val b) % 2 ^ 32 := by
      rcases int8_t_as_uint32_cases b with hb | hb <;> omega
    have := ih ((acc + int8_t_as_uint32 b) % 2 ^ 32) (z + int8_t_val b) hstep
    simp only [checksum_signed_loop] at this ⊢
    simp only [List.foldl_cons, List.map_cons, List.sum_cons, this]
    congr 1
    omega

theorem checksum_signed_loop_lt (r : List uint8_t) (acc : Nat) (hacc : acc < 2 ^ 32) :
    checksum_signed_loop r acc < 2 ^ 32 := by
  induction r generalizing acc with
  | nil => simpa [checksum_signed_loop] using hacc
  | cons b rest ih =>
    have := ih ((acc + int8_t_as_uint32 b) % 2 ^ 32) (Nat.mod_lt _ (by norm_num))
    simp only [checksum_signed_loop] at this ⊢
    simpa only [List.foldl_cons] using this

theorem checksum_signed_eq (h : tar_header_t) :
    ((checksum_signed h : Nat) : Int) = signed_sum h % 2 ^ 32 := by
  have h1 := checksum_signed_loop_eq (h.member 0 148) 256 256 rfl
  have h2 := checksum_signed_loop_eq (h.member 156 344)
    (checksum_signed_loop (h.member 0 148) 256) (256 + ((h.member 0 148).map int8_t_val).sum) h1
  have hlt : checksum_signed h < 2 ^ 32 :=
    checksum_signed_loop_lt _ _ (checksum_signed_loop_lt _ _ (by norm_num))
  have hs : signed_sum h = 256 + ((h.member 0 148).map int8_t_val).sum +
      ((h.member 156 344).map int8_t_val).sum := by
    simp only [signed_sum, summed_bytes, List.map_append, List.sum_append]
    omega
  rw [hs, ← h2]
  unfold checksum_signed at hlt ⊢
  omega

theorem checksum_parsed_eq (h : tar_header_t) :
    checksum_parsed h = parse_octal (h.member 148 8) 8 ∧ checksum_parsed h < 8 ^ 8 := by
  have hlt := parse_octal_lt_pow (h.member 148 8) 8
  have : checksum_parsed h = parse_octal (h.member 148 8) 8 := by
    unfold checksum_parsed tar_header_t.checksum
    exact Nat.mod_eq_of_lt (lt_trans hlt (by norm_num))
  exact ⟨this, by rw [this]; exact hlt⟩

theorem validate_iff_code (h : tar_header_t) :
    tar_validate_header h = true ↔
      (h.member 257 5 = ustar ∧
       ((h.byte 262).val = 0 ∨ (h.byte 262).val = 32) ∧
       parse_octal (h.member 263 2) 2 = 0 ∧
       (checksum_parsed h = checksum_unsigned h ∨ checksum_parsed h = checksum_signed h)) := by
  have hlen : 5 ≤ h.magic.length := by
    rw [tar_header_t.magic, member_length h 257 6 (by norm_num)]
    norm_num
  have hm : memcmp h.magic ustar 5 = 0 ↔ h.member 257 5 = ustar := by
    rw [memcmp_eq_zero_iff 5 _ _ hlen (by decide), magic_take]
    rfl
  unfold tar_validate_header
  rw [magic_getD]
  by_cases h1 : memcmp h.magic ustar 5 = 0
  · by_cases h2 : (h.byte 262).val = 0 ∨ (h.byte 262).val = 32
    · by_cases h3 : parse_octal h.version 2 = 0
      · have h3v : parse_octal (h.member 263 2) 2 = 0 := h3
        have h2n : ¬ ((h.byte 262).val ≠ 0 ∧ (h.byte 262).val ≠ 32) := by
          rcases h2 with h2 | h2 <;> simp [h2]
        rw [if_neg (by simpa using h1), if_neg h2n, if_neg (by simpa using h3)]
        simp only [decide_eq_true_eq]
        exact ⟨fun hc => ⟨hm.mp h1, h2, h3v, hc⟩, fun hc => hc.2.2.2⟩
      · have h3v : ¬ parse_octal (h.member 263 2) 2 = 0 := h3
        have h2n : ¬ ((h.byte 262).val ≠ 0 ∧ (h.byte 262).val ≠ 32) := by
          rcases h2 with h2 | h2 <;> simp [h2]
        rw [if_neg (by simpa using h1), if_neg h2n, if_pos (by simpa using h3)]
        simp only [Bool.false_eq_true, false_iff]
        exact fun hc => h3v hc.2.2.1
    · have h2n : (h.byte 262).val ≠ 0 ∧ (h.byte 262).val ≠ 32 := by
        constructor
        · exact fun hc => h2 (Or.inl hc)
        · exact fun hc => h2 (Or.inr hc)
      rw [if_neg (by simpa using h1), if_pos h2n]
      simp only [Bool.false_eq_true, false_iff]
      exact fun hc => h2 hc.2.1
  · rw [if_pos (by simpa using h1)]
    simp only [Bool.false_eq_true, false_iff]
    exact fun hc => h1 (hm.mpr hc.1)

/-! ## Lemmas on the sums -/

theorem sum_val_le (l : List uint8_t) : (l.map (fun b => b.val)).sum ≤ 255 * l.length := by
  induction l with
  | nil => simp
  | cons b rest ih =>
    have := b.isLt
    simp only [List.map_cons, List.sum_cons, List.length_cons]
    omega

theorem sum_int8_bounds (l : List uint8_t) :
    -128 * (l.length : Int) ≤ (l.map int8_t_val).sum ∧
    (l.map int8_t_val).sum ≤ 127 * (l.length : Int) := by
  induction l with
  | nil => simp
  | cons b rest ih =>
    have hb := b.isLt
    have h1 : -128 ≤ int8_t_val b ∧ int8_t_val b ≤ 127 := by
      unfold int8_t_val
      split <;> omega
    simp only [List.map_cons, List.sum_cons, List.length_cons]
    push_cast
    omega

theorem sum_val_eq_int8 (l : List uint8_t) :
    (((l.map (fun b => b.val)).sum : Nat) : Int) =
      (l.map int8_t_val).sum + 256 * ((l.countP (fun b => decide (128 ≤ b.val)) : Nat) : Int) := by
  induction l with
  | nil => simp
  | cons b rest ih =>
    simp only [List.map_cons, List.sum_cons, List.countP_cons, Nat.cast_add]
    rw [ih]
    unfold int8_t_val
    by_cases hb : b.val < 128
    · have hn : ¬ 128 ≤ b.val := by omega
      simp only [hb, if_true, decide_eq_true_eq, hn, if_false, Nat.cast_zero]
      omega
    · have hn : 128 ≤ b.val := by omega
      simp only [hb, if_false, decide_eq_true_eq, hn, if_true, Nat.cast_one]
      omega

theorem summed_bytes_length (h : tar_header_t) : (summed_bytes h).length = 492 := by
  simp only [summed_bytes, List.length_append, member_length h 0 148 (by norm_num),
    member_length h 156 344 (by norm_num)]

theorem unsigned_sum_bounds (h : tar_header_t) :
    256 ≤ unsigned_sum h ∧ unsigned_sum h ≤ 125716 := by
  have h1 := sum_val_le (summed_bytes h)
  rw [summed_bytes_length] at h1
  unfold unsigned_sum
  omega

theorem signed_sum_bounds (h : tar_header_t) :
    -62720 ≤ signed_sum h ∧ signed_sum h ≤ 62740 := by
  have h1 := sum_int8_bounds (summed_bytes h)
  rw [summed_bytes_length] at h1
  unfold signed_sum
  push_cast at h1
  omega

theorem unsigned_sum_eq_signed (h : tar_header_t) :
    ((unsigned_sum h : Nat) : Int) =
      signed_sum h +
        256 * (((summed_bytes h).countP (fun b => decide (128 ≤ b.val)) : Nat) : Int) := by
  have h1 := sum_val_eq_int8 (summed_bytes h)
  unfold unsigned_sum signed_sum
  push_cast at h1 ⊢
  omega

theorem member_set_byte_in (h : tar_header_t) (i : Nat) (v : uint8_t) (off w : Nat)
    (hlo : off ≤ i) (hhi : i < off + w) (hw : off + w ≤ 512) :
    (h.set_byte i v).member off w = (h.member off w).set (i - off) v := by
  have hs := h.size_eq
  have hml := member_length h off w hw
  apply List.ext_getElem?
  intro k
  simp only [tar_header_t.member, tar_header_t.set_byte] at hml ⊢
  rw [List.getElem?_set, hml, List.getElem?_take, List.getElem?_take, List.getElem?_drop,
    List.getElem?_drop, List.getElem?_set]
  by_cases hk : k < w
  · by_cases hik : i = off + k
    · have h1 : i - off = k := by omega
      have h2 : i < h.bytes.length := by omega
      have h3 : i - off < w := by omega
      subst hik
      simp only [hk, Nat.add_sub_cancel_left, if_true]
      rw [if_pos h2]
    · have h1 : ¬ i - off = k := by omega
      simp only [hk, hik, h1, if_true, if_false]
  · have h1 : ¬ i - off = k := by omega
    simp only [hk, h1, if_false]

theorem member_getD (h : tar_header_t) (i off w : Nat) (hlo : off ≤ i) (hhi : i < off + w) :
    (h.member off w).getD (i - off) 0 = h.byte i := by
  simp only [tar_header_t.member, tar_header_t.byte, List.getD_eq_getElem?_getD,
    List.getElem?_take, List.getElem?_drop]
  rw [if_pos (by omega)]
  congr 2
  omega

theorem sum_val_set (l : List uint8_t) (j : Nat) (v : uint8_t) (hj : j < l.length) :
    ((l.set j v).map (fun b => b.val)).sum + (l.getD j 0).val
      = (l.map (fun b => b.val)).sum + v.val := by
  induction l generalizing j with
  | nil => simp at hj
  | cons b rest ih =>
    cases j with
    | zero =>
      simp only [List.set_cons_zero, List.map_cons, List.sum_cons, List.getD_cons_zero]
      omega
    | succ m =>
      have := ih m (by simpa using hj)
      simp only [List.set_cons_succ, List.map_cons, List.sum_cons, List.getD_cons_succ]
      omega

theorem sum_int8_set (l : List uint8_t) (j : Nat) (v : uint8_t) (hj : j < l.length) :
    ((l.set j v).map int8_t_val).sum + int8_t_val (l.getD j 0)
      = (l.map int8_t_val).sum + int8_t_val v := by
  induction l generalizing j with
  | nil => simp at hj
  | cons b rest ih =>
    cases j with
    | zero =>
      simp only [List.set_cons_zero, List.map_cons, List.sum_cons, List.getD_cons_zero]
      omega
    | succ m =>
      have := ih m (by simpa using hj)
      simp only [List.set_cons_succ, List.map_cons, List.sum_cons, List.getD_cons_succ]
      omega

theorem sums_set_byte (h : tar_header_t) (i : Nat) (v : uint8_t)
    (hi : i < 148 ∨ (156 ≤ i ∧ i < 500)) :
    unsigned_sum (h.set_byte i v) + (h.byte i).val = unsigned_sum h + v.val ∧
    signed_sum (h.set_byte i v) + int8_t_val (h.byte i) = signed_sum h + int8_t_val v := by
  have hl1 := member_length h 0 148 (by norm_num)
  have hl2 := member_length h 156 344 (by norm_num)
  rcases hi with hi | ⟨hlo, hhi⟩
  · have e1 := member_set_byte_in h i v 0 148 (by omega) (by omega) (by norm_num)
    have e2 := member_set_byte h i v 156 344 (Or.inl (by omega))
    have hg := member_getD h i 0 148 (by omega) (by omega)
    have s1 := sum_val_set (h.member 0 148) (i - 0) v (by omega)
    have s2 := sum_int8_set (h.member 0 148) (i - 0) v (by omega)
    rw [hg] at s1 s2
    simp only [unsigned_sum, signed_sum, summed_bytes, e1, e2, List.map_append, List.sum_append]
    constructor <;> omega
  · have e1 := member_set_byte h i v 0 148 (Or.inr (by omega))
    have e2 := member_set_byte_in h i v 156 344 hlo (by omega) (by norm_num)
    have hg := member_getD h i 156 344 hlo (by omega)
    have s1 := sum_val_set (h.member 156 344) (i - 156) v (by omega)
    have s2 := sum_int8_set (h.member 156 344) (i - 156) v (by omega)
    rw [hg] at s1 s2
    simp only [unsigned_sum, signed_sum, summed_bytes, e1, e2, List.map_append, List.sum_append]
    constructor <;> omega

theorem checksum_mismatch_set_covered_byte (h : tar_header_t) (i : Nat) (v : uint8_t)
    (hc : checksum_parsed h = checksum_unsigned h ∨ checksum_parsed h = checksum_signed h)
    (hi : i < 148 ∨ (156 ≤ i ∧ i < 500)) (hne : v ≠ h.byte i) :
    checksum_parsed (h.set_byte i v) = checksum_parsed h ∧
    checksum_unsigned (h.set_byte i v) ≠ checksum_parsed h ∧
    checksum_signed (h.set_byte i v) ≠ checksum_parsed h := by
  have hp := checksum_parsed_eq h
  have hp2 := checksum_parsed_eq (h.set_byte i v)
  have hm : (h.set_byte i v).member 148 8 = h.member 148 8 :=
    member_set_byte h i v 148 8 (by omega)
  rw [hm] at hp2
  have hu := checksum_unsigned_eq h
  have hu2 := checksum_unsigned_eq (h.set_byte i v)
  have hs := checksum_signed_eq h
  have hs2 := checksum_signed_eq (h.set_byte i v)
  have hb := unsigned_sum_bounds h
  have hb2 := unsigned_sum_bounds (h.set_byte i v)
  have hsb := signed_sum_bounds h
  have hsb2 := signed_sum_bounds (h.set_byte i v)
  have hr := unsigned_sum_eq_signed h
  have hr2 := unsigned_sum_eq_signed (h.set_byte i v)
  have hd := sums_set_byte h i v hi
  have hvne : v.val ≠ (h.byte i).val := fun hc => hne (Fin.ext hc)
  have hvlt := v.isLt
  have hblt := (h.byte i).isLt
  have hi8 : int8_t_val v ≠ int8_t_val (h.byte i) ∧
      -128 ≤ int8_t_val v ∧ int8_t_val v ≤ 127 ∧
      -128 ≤ int8_t_val (h.byte i) ∧ int8_t_val (h.byte i) ≤ 127 := by
    unfold int8_t_val
    split <;> split <;> omega
  have hpl : checksum_parsed h < 16777216 := by
    have := hp.2
    norm_num at this
    exact this
  have hpe : checksum_parsed (h.set_byte i v) = checksum_parsed h := by
    rw [hp2.1, hp.1]
  refine ⟨hpe, ?_, ?_⟩
  · intro hbad
    generalize checksum_parsed h = p at *
    generalize checksum_unsigned h = cu at *
    generalize checksum_unsigned (h.set_byte i v) = cu2 at *
    generalize checksum_signed h = cs at *
    generalize unsigned_sum h = U at *
    generalize unsigned_sum (h.set_byte i v) = U2 at *
    generalize signed_sum h = T at *
    generalize (List.countP (fun b => decide (128 ≤ b.val)) (summed_bytes h)) = k at *
    generalize int8_t_val v = sv at *
    generalize int8_t_val (h.byte i) = sb at *
    omega
  · intro hbad
    generalize checksum_parsed h = p at *
    generalize checksum_unsigned h = cu at *
    generalize checksum_signed h = cs at *
    generalize checksum_signed (h.set_byte i v) = cs2 at *
    generalize unsigned_sum h = U at *
    generalize unsigned_sum (h.set_byte i v) = U2 at *
    generalize signed_sum h = T at *
    generalize signed_sum (h.set_byte i v) = T2 at *
    generalize (List.countP (fun b => decide (128 ≤ b.val)) (summed_bytes (h.set_byte i v))) = k2 at *
    generalize int8_t_val v = sv at *
    generalize int8_t_val (h.byte i) = sb at *
    omega

theorem validate_set_covered_byte (h : tar_header_t) (i : Nat) (v : uint8_t)
    (hv : tar_validate_header h = true) (hi : i < 148 ∨ (156 ≤ i ∧ i < 500))
    (hne : v ≠ h.byte i) : tar_validate_header (h.set_byte i v) = false := by
  have hc : checksum_parsed h = checksum_unsigned h ∨ checksum_parsed h = checksum_signed h :=
    ((validate_iff_code h).mp hv).2.2.2
  have hm := checksum_mismatch_set_covered_byte h i v hc hi hne
  rw [Bool.eq_false_iff]
  intro hv2
  rcases ((validate_iff_code (h.set_byte i v)).mp hv2).2.2.2 with h1 | h1
  · exact hm.2.1 (by rw [← h1, hm.1])
  · exact hm.2.2 (by rw [← h1, hm.1])

theorem validate_set_uncovered_byte (h : tar_header_t) (i : Nat) (v : uint8_t) (hi : 500 ≤ i) :
    tar_validate_header (h.set_byte i v) = tar_validate_header h := by
  have e1 := member_set_byte h i v 257 5 (Or.inr (by omega))
  have e2 := byte_set_byte_ne h i 262 v (by omega)
  have e3 := member_set_byte h i v 263 2 (Or.inr (by omega))
  have e4 := member_set_byte h i v 148 8 (Or.inr (by omega))
  have e5 := member_set_byte h i v 0 148 (Or.inr (by omega))
  have e6 := member_set_byte h i v 156 344 (Or.inr (by omega))
  have hp : checksum_parsed (h.set_byte i v) = checksum_parsed h := by
    simp only [checksum_parsed, tar_header_t.checksum, e4]
  have hu : checksum_unsigned (h.set_byte i v) = checksum_unsigned h := by
    simp only [checksum_unsigned, e5, e6]
  have hs : checksum_signed (h.set_byte i v) = checksum_signed h := by
    simp only [checksum_signed, e5, e6]
  rw [Bool.eq_iff_iff, validate_iff_code, validate_iff_code, e1, e2, e3, hp, hu, hs]

theorem parse_octal_loop_digit (d : Nat) (rest : List uint8_t) (v : Nat) :
    parse_octal_loop (octal_digit_byte d :: rest) v =
      parse_octal_loop rest (((8 * v) % 2 ^ 64 + d % 8) % 2 ^ 64) := by
  have hv : (octal_digit_byte d).val = 48 + d % 8 := rfl
  have h1 : ¬ (octal_digit_byte d).val = 32 := by omega
  have h2 : 48 ≤ (octal_digit_byte d).val ∧ (octal_digit_byte d).val ≤ 55 := by omega
  rw [parse_octal_loop, if_neg h1, if_pos h2, hv, Nat.add_sub_cancel_left]

theorem parse_octal_checksum_field (s : Nat) (hs : s < 8 ^ 6) :
    (checksum_field s).length = 8 ∧ parse_octal (checksum_field s) 8 = s := by
  refine ⟨rfl, ?_⟩
  have hstop : ∀ v : Nat, parse_octal_loop [(0 : uint8_t), 32] v = v := fun v => rfl
  have ht : (checksum_field s).take 8 = checksum_field s := rfl
  unfold parse_octal
  rw [ht]
  unfold checksum_field
  rw [parse_octal_loop_digit, parse_octal_loop_digit, parse_octal_loop_digit,
    parse_octal_loop_digit, parse_octal_loop_digit, parse_octal_loop_digit, hstop]
  norm_num at hs
  omega

theorem validate_set_checksum (h : tar_header_t) (f : List uint8_t)
    (hm : h.member 257 5 = ustar) (h6 : (h.byte 262).val = 0 ∨ (h.byte 262).val = 32)
    (hv : parse_octal (h.member 263 2) 2 = 0) (hf : f.length = 8)
    (hp : parse_octal f 8 = unsigned_sum h) :
    tar_validate_header (h.set_checksum f) = true := by
  have e1 := member_set_checksum h f 257 5 (Or.inr (by omega))
  have e2 := byte_set_checksum h f 262 (Or.inr (by omega))
  have e3 := member_set_checksum h f 263 2 (Or.inr (by omega))
  have e4 := checksum_set_checksum h f hf
  have e5 := member_set_checksum h f 0 148 (Or.inl (by omega))
  have e6 := member_set_checksum h f 156 344 (Or.inr (by omega))
  have hb := unsigned_sum_bounds h
  have hu : checksum_unsigned (h.set_checksum f) = unsigned_sum h := by
    have : checksum_unsigned (h.set_checksum f) = checksum_unsigned h := by
      simp only [checksum_unsigned, e5, e6]
    rw [this, checksum_unsigned_eq]
    omega
  have hpar : checksum_parsed (h.set_checksum f) = unsigned_sum h := by
    rw [(checksum_parsed_eq _).1, e4, hp]
  rw [validate_iff_code, e1, e2, e3, hu, hpar]
  exact ⟨hm, h6, hv, Or.inl rfl⟩

/-! ## Claims on the validator -/

/-- C1: `tar_validate_header` returns true exactly when bytes 257..261 are
"ustar", byte 262 is 0x00 or 0x20, the 2-byte version member decodes to 0, and
the decoded 8-byte checksum member equals the unsigned sum modulo `2 ^ 32` or
the signed sum modulo `2 ^ 32` (each sum being 256 plus the bytes at offsets
0..147 and 156..499). -/
theorem tar_validate_header_iff (h : tar_header_t) :
    tar_validate_header h = true ↔
      (h.member 257 5 = ustar ∧
       ((h.byte 262).val = 0 ∨ (h.byte 262).val = 32) ∧
       parse_octal (h.member 263 2) 2 = 0 ∧
       (parse_octal (h.member 148 8) 8 = unsigned_sum h % 2 ^ 32 ∨
        ((parse_octal (h.member 148 8) 8 : Nat) : Int) = signed_sum h % 2 ^ 32)) := by
  have hsum : (checksum_parsed h = checksum_unsigned h ∨ checksum_parsed h = checksum_signed h) ↔
      (parse_octal (h.member 148 8) 8 = unsigned_sum h % 2 ^ 32 ∨
        ((parse_octal (h.member 148 8) 8 : Nat) : Int) = signed_sum h % 2 ^ 32) := by
    rw [(checksum_parsed_eq h).1, checksum_unsigned_eq h, ← checksum_signed_eq h]
    constructor
    · rintro (h1 | h1)
      · exact Or.inl h1
      · exact Or.inr (by rw [h1])
    · rintro (h1 | h1)
      · exact Or.inl h1
      · exact Or.inr (by exact_mod_cast h1)
  rw [validate_iff_code h, hsum]

/-- C2: on every header whose magic is "ustar" followed by 0x00 or a space
and whose version member is "00", overwriting the checksum member with any
8-byte field that decodes to the unsigned sum makes `tar_validate_header`
return true; the sum is at most 125716, below `8 ^ 6`, so six zero-padded octal
digits, a NUL and a space always encode it; and after any byte outside the
magic and version members is changed, recomputing the checksum member in the
same way makes the header validate again. -/
theorem checksum_recompute_valid (h : tar_header_t) (hm : h.member 257 5 = ustar)
    (h6 : (h.byte 262).val = 0 ∨ (h.byte 262).val = 32) (hv : h.member 263 2 = [48, 48]) :
    (∀ f : List uint8_t, f.length = 8 → parse_octal f 8 = unsigned_sum h →
      tar_validate_header (h.set_checksum f) = true) ∧
    (unsigned_sum h ≤ 256 + 492 * 255 ∧ 256 + 492 * 255 = 125716 ∧ 125716 < 8 ^ 6) ∧
    ((checksum_field (unsigned_sum h)).length = 8 ∧
      parse_octal (checksum_field (unsigned_sum h)) 8 = unsigned_sum h) ∧
    tar_validate_header (h.set_checksum (checksum_field (unsigned_sum h))) = true ∧
    (∀ (i : Nat) (v : uint8_t), i < 257 ∨ 265 ≤ i →
      tar_validate_header
        ((h.set_byte i v).set_checksum (checksum_field (unsigned_sum (h.set_byte i v)))) = true) := by
  have hver : ∀ g : tar_header_t, g.member 263 2 = [48, 48] → parse_octal (g.member 263 2) 2 = 0 := by
    intro g hg
    rw [hg]
    rfl
  have hfield : ∀ g : tar_header_t, (checksum_field (unsigned_sum g)).length = 8 ∧
      parse_octal (checksum_field (unsigned_sum g)) 8 = unsigned_sum g := by
    intro g
    have hb := unsigned_sum_bounds g
    exact parse_octal_checksum_field _ (lt_of_le_of_lt hb.2 (by norm_num))
  have hb := unsigned_sum_bounds h
  refine ⟨?_, ⟨by omega, by norm_num, by norm_num⟩, hfield h, ?_, ?_⟩
  · intro f hf hp
    exact validate_set_checksum h f hm h6 (hver h hv) hf hp
  · exact validate_set_checksum h _ hm h6 (hver h hv) (hfield h).1 (hfield h).2
  · intro i v hi
    have e1 : (h.set_byte i v).member 257 5 = ustar := by
      rw [member_set_byte h i v 257 5 (by omega)]
      exact hm
    have e2 : ((h.set_byte i v).byte 262).val = 0 ∨ ((h.set_byte i v).byte 262).val = 32 := by
      rw [byte_set_byte_ne h i 262 v (by omega)]
      exact h6
    have e3 : (h.set_byte i v).member 263 2 = [48, 48] := by
      rw [member_set_byte h i v 263 2 (by omega)]
      exact hv
    exact validate_set_checksum _ _ e1 e2 (hver _ e3) (hfield _).1 (hfield _).2

/-- Witness of C2: the sample header, whose recomputed checksum member is
"012530" NUL space; and the same header after its first name byte is changed
to `b`, whose recomputed checksum member is "012531" NUL space. -/
theorem checksum_recompute_valid_witness :
    checksum_field (unsigned_sum sample_header) = [48, 49, 50, 53, 51, 48, 0, 32] ∧
    checksum_field (unsigned_sum (sample_header.set_byte 0 98)) = [48, 49, 50, 53, 51, 49, 0, 32] ∧
    tar_validate_header
      ((sample_header.set_byte 0 98).set_checksum
        (checksum_field (unsigned_sum (sample_header.set_byte 0 98)))) = true :=
  ⟨by decide!, by decide!,
   (checksum_recompute_valid sample_header (by decide!) (by decide!) (by decide!)).2.2.2.2 0 98
     (by decide)⟩

/-- C3 as stated fails: the sample header is valid, offset 505 lies outside the
checksum member, the byte there is 0, and after it is replaced by 1 the header
is still valid. -/
theorem checksum_sensitivity_fails_on_padding :
    ¬ (∀ (h : tar_header_t) (i : Nat) (v : uint8_t), tar_validate_header h = true →
        i < 512 → (i < 148 ∨ 156 ≤ i) → v ≠ h.byte i →
        tar_validate_header (h.set_byte i v) = false) := by
  intro hall
  have hbad := hall sample_header 505 1 (by decide!) (by decide) (by decide) (by decide!)
  have hgood : tar_validate_header (sample_header.set_byte 505 1) = true := by decide!
  rw [hgood] at hbad
  exact Bool.noConfusion hbad

/-- C3, amended: on every header for which `tar_validate_header` returns true,
replacing the byte at any offset covered by the sums (0..147 or 156..499) with
a different value, the checksum member left as it is, makes it return false;
replacing a byte at offset 500 or beyond (the padding member, which no sum
covers) leaves the result true. -/
theorem checksum_sensitivity (h : tar_header_t) (hv : tar_validate_header h = true) :
    (∀ (i : Nat) (v : uint8_t), (i < 148 ∨ (156 ≤ i ∧ i < 500)) → v ≠ h.byte i →
      tar_validate_header (h.set_byte i v) = false) ∧
    (∀ (i : Nat) (v : uint8_t), 500 ≤ i → tar_validate_header (h.set_byte i v) = true) := by
  constructor
  · intro i v hi hne
    exact validate_set_covered_byte h i v hv hi hne
  · intro i v hi
    rw [validate_set_uncovered_byte h i v hi]
    exact hv

/-- Witness of C3: changing the first name byte of the sample header from `a`
to `b`, or its magic byte 262 from NUL to a space, makes it invalid. -/
theorem checksum_sensitivity_witness :
    tar_validate_header (sample_header.set_byte 0 98) = false ∧
    tar_validate_header (sample_header.set_byte 262 32) = false :=
  ⟨(checksum_sensitivity sample_header (by decide!)).1 0 98 (by decide) (by decide!),
   (checksum_sensitivity sample_header (by decide!)).1 262 32 (by decide) (by decide!)⟩

/-! ## Lemmas on the unbounded scan -/

theorem parse_octal_loop_unbounded_eq_foldl (xs : List uint8_t) (v : Nat) :
    parse_octal_loop_unbounded xs v =
      ((octal_scan_span xs).filter (fun b => !is_space b)).foldl
        (fun acc d => 8 * acc + (d.val - 48)) v := by
  induction xs generalizing v with
  | nil => simp [parse_octal_loop_unbounded, octal_scan_span]
  | cons b rest ih =>
    unfold parse_octal_loop_unbounded
    by_cases hs : b.val = 32
    · have h1 : is_space b = true := by simp [is_space, hs]
      simp only [hs, if_true]
      rw [ih v]
      simp [octal_scan_span, List.takeWhile_cons, h1]
    · by_cases hd : 48 ≤ b.val ∧ b.val ≤ 55
      · have h1 : is_space b = false := by simp [is_space, hs]
        have h2 : is_octal_digit b = true := by simp [is_octal_digit, hd]
        simp only [hs, if_false, hd, and_self, if_true]
        rw [ih (8 * v + (b.val - 48))]
        simp [octal_scan_span, List.takeWhile_cons, h1, h2]
      · have h1 : is_space b = false := by simp [is_space, hs]
        have h2 : is_octal_digit b = false := by simp [is_octal_digit, hd]
        simp only [hs, if_false, hd]
        simp [octal_scan_span, List.takeWhile_cons, h1, h2]

theorem scan_digits_are_digits (xs : List uint8_t) :
    ∀ d ∈ (octal_scan_span xs).filter (fun b => !is_space b), 48 ≤ d.val ∧ d.val ≤ 55 := by
  intro d hd
  rw [List.mem_filter] at hd
  have hp := List.mem_takeWhile_imp hd.1
  have hs := hd.2
  simp only [is_space, is_octal_digit, Bool.or_eq_true, decide_eq_true_eq,
    Bool.not_eq_true', decide_eq_false_iff_not] at hp hs
  omega

theorem scan_digits_length_le (xs : List uint8_t) :
    ((octal_scan_span xs).filter (fun b => !is_space b)).length ≤ xs.length :=
  le_trans (List.length_filter_le _ _) (List.takeWhile_prefix _).length_le

theorem parse_octal_loop_unbounded_lt (xs : List uint8_t) :
    parse_octal_loop_unbounded xs 0 < 8 ^ xs.length := by
  rw [parse_octal_loop_unbounded_eq_foldl]
  have hv := octal_value_lt _ 0 (fun d hd => by have := scan_digits_are_digits xs d hd; omega)
  have hp : 8 ^ ((octal_scan_span xs).filter (fun b => !is_space b)).length ≤ 8 ^ xs.length :=
    Nat.pow_le_pow_right (by norm_num) (scan_digits_length_le xs)
  omega

theorem parse_octal_eq_unbounded (field : List uint8_t) (n : Nat) (hn : n ≤ 21) :
    parse_octal field n = parse_octal_loop_unbounded (field.take n) 0 := by
  have h1 : parse_octal field n = parse_octal_ref (field.take n) :=
    parse_octal_loop_zero_eq_ref (field.take n)
  have h2 := parse_octal_loop_unbounded_lt (field.take n)
  have h3 : 8 ^ (field.take n).length ≤ 8 ^ 21 :=
    Nat.pow_le_pow_right (by norm_num) (le_trans (by simp) hn)
  rw [h1, parse_octal_ref, octal_numeral_value, ← parse_octal_loop_unbounded_eq_foldl]
  apply Nat.mod_eq_of_lt
  calc parse_octal_loop_unbounded (field.take n) 0 < 8 ^ (field.take n).length := h2
    _ ≤ 8 ^ 21 := h3
    _ < 2 ^ 64 := by norm_num

theorem to_uint32_of_lt (x : Nat) (hx : x < 8 ^ 8) : to_uint32 x = x :=
  Nat.mod_eq_of_lt (lt_trans hx (by norm_num))

theorem to_int64_of_lt (x : Nat) (hx : x < 8 ^ 12) : to_int64 x = (x : Int) := by
  have h1 : x % 2 ^ 64 = x := Nat.mod_eq_of_lt (lt_trans hx (by norm_num))
  unfold to_int64
  rw [h1, if_pos (lt_trans hx (by norm_num))]

/-! ## Claims on the numeric accessors -/

/-- C11: for every header, each numeric accessor returns exactly the octal
decode of its own member, as a mathematical integer: size (offsets 124..135),
modify time (136..147), uid (108..115), gid (116..123), device major
(329..336) and device minor (337..344); the conversions to `uint32_t` and
`int64_t` neither truncate nor change the sign. -/
theorem numeric_accessors_exact (h : tar_header_t) :
    tar_get_size h = parse_octal (h.member 124 12) 12 ∧
    tar_get_modify_time h = ((parse_octal (h.member 136 12) 12 : Nat) : Int) ∧
    tar_get_uid h = parse_octal (h.member 108 8) 8 ∧
    tar_get_gid h = parse_octal (h.member 116 8) 8 ∧
    tar_get_device_major_number h = parse_octal (h.member 329 8) 8 ∧
    tar_get_device_minor_number h = parse_octal (h.member 337 8) 8 := by
  refine ⟨rfl, ?_, ?_, ?_, ?_, ?_⟩
  · exact to_int64_of_lt _ (parse_octal_lt_pow (h.member 136 12) 12)
  · exact to_uint32_of_lt _ (parse_octal_lt_pow (h.member 108 8) 8)
  · exact to_uint32_of_lt _ (parse_octal_lt_pow (h.member 116 8) 8)
  · exact to_uint32_of_lt _ (parse_octal_lt_pow (h.member 329 8) 8)
  · exact to_uint32_of_lt _ (parse_octal_lt_pow (h.member 337 8) 8)

/-- C18: on every byte range of width `w ≤ 21`, `parse_octal` returns a value
below `8 ^ w`, and the scan never wraps: after every number `k ≤ w` of bytes
the accumulator computed without any reduction is below `8 ^ w < 2 ^ 64` and is
the value `parse_octal` holds. Hence for every header the size and the modify
time are in `0 .. 2 ^ 36 - 1`, and uid, gid, the device numbers, the mode and
the parsed checksum are in `0 .. 2 ^ 24 - 1`. -/
theorem parse_octal_no_wrap :
    (∀ (field : List uint8_t) (w : Nat), w ≤ 21 →
      parse_octal field w < 8 ^ w ∧
      ∀ k : Nat, k ≤ w →
        parse_octal_loop_unbounded (field.take k) 0 < 8 ^ w ∧
        8 ^ w < 2 ^ 64 ∧
        parse_octal field k = parse_octal_loop_unbounded (field.take k) 0) ∧
    (∀ h : tar_header_t,
      tar_get_size h < 2 ^ 36 ∧
      (0 ≤ tar_get_modify_time h ∧ tar_get_modify_time h < 2 ^ 36) ∧
      tar_get_uid h < 2 ^ 24 ∧ tar_get_gid h < 2 ^ 24 ∧
      tar_get_device_major_number h < 2 ^ 24 ∧ tar_get_device_minor_number h < 2 ^ 24 ∧
      (0 ≤ tar_get_mode h ∧ tar_get_mode h < 2 ^ 24) ∧
      checksum_parsed h < 2 ^ 24) := by
  constructor
  · intro field w hw
    refine ⟨parse_octal_lt_pow field w, ?_⟩
    intro k hk
    have h1 := parse_octal_loop_unbounded_lt (field.take k)
    have h2 : 8 ^ (field.take k).length ≤ 8 ^ w :=
      Nat.pow_le_pow_right (by norm_num) (le_trans (by simp) hk)
    have h3 : 8 ^ w ≤ 8 ^ 21 := Nat.pow_le_pow_right (by norm_num) hw
    refine ⟨lt_of_lt_of_le h1 h2, lt_of_le_of_lt h3 (by norm_num), ?_⟩
    exact parse_octal_eq_unbounded field k (le_trans hk hw)
  · intro h
    have e8 : (8 : Nat) ^ 8 = 2 ^ 24 := by norm_num
    have e12 : (8 : Nat) ^ 12 = 2 ^ 36 := by norm_num
    have hsz := parse_octal_lt_pow h.size 12
    have hmt := parse_octal_lt_pow h.modify_time 12
    have huid := parse_octal_lt_pow h.uid 8
    have hgid := parse_octal_lt_pow h.gid 8
    have hmaj := parse_octal_lt_pow h.device_major 8
    have hmin := parse_octal_lt_pow h.device_minor 8
    have hmode := parse_octal_lt_pow h.mode 8
    have hck := (checksum_parsed_eq h).2
    rw [e12] at hsz hmt
    rw [e8] at huid hgid hmaj hmin hmode hck
    have hmt2 : tar_get_modify_time h = ((parse_octal h.modify_time 12 : Nat) : Int) :=
      to_int64_of_lt _ (parse_octal_lt_pow h.modify_time 12)
    have hmode2 : tar_get_mode h = ((parse_octal h.mode 8 : Nat) : Int) := by
      have hmod : parse_octal h.mode 8 % 2 ^ 32 = parse_octal h.mode 8 :=
        Nat.mod_eq_of_lt (lt_trans hmode (by norm_num))
      unfold tar_get_mode to_int
      rw [hmod, if_pos (lt_trans hmode (by norm_num))]
    refine ⟨hsz, ⟨?_, ?_⟩, ?_, ?_, ?_, ?_, ⟨?_, ?_⟩, hck⟩
    · rw [hmt2]; exact Int.ofNat_nonneg _
    · rw [hmt2]; exact_mod_cast hmt
    · rw [tar_get_uid, to_uint32_of_lt _ (parse_octal_lt_pow h.uid 8)]; exact huid
    · rw [tar_get_gid, to_uint32_of_lt _ (parse_octal_lt_pow h.gid 8)]; exact hgid
    · rw [tar_get_device_major_number, to_uint32_of_lt _ (parse_octal_lt_pow h.device_major 8)]
      exact hmaj
    · rw [tar_get_device_minor_number, to_uint32_of_lt _ (parse_octal_lt_pow h.device_minor 8)]
      exact hmin
    · rw [hmode2]; exact Int.ofNat_nonneg _
    · rw [hmode2]; exact_mod_cast hmode

/-- Witness of C18: the 12-byte size member of the sample header decodes to 10
in both arithmetics, below `8 ^ 12`. -/
theorem parse_octal_no_wrap_witness :
    parse_octal sample_header.size 12 < 8 ^ 12 ∧
    parse_octal sample_header.size 12 = parse_octal_loop_unbounded (sample_header.size.take 12) 0 ∧
    parse_octal sample_header.size 12 = 10 :=
  ⟨(parse_octal_no_wrap.1 sample_header.size 12 (by decide)).1,
   ((parse_octal_no_wrap.1 sample_header.size 12 (by decide)).2 12 (by decide)).2.2,
   by decide!⟩

/-! ## Lemmas on space removal -/

theorem parse_octal_loop_remove_spaces (xs : List uint8_t) (v : Nat) :
    parse_octal_loop (remove_spaces xs) v = parse_octal_loop xs v := by
  induction xs generalizing v with
  | nil => rfl
  | cons b rest ih =>
    by_cases hs : b.val = 32
    · have h1 : is_space b = true := by simp [is_space, hs]
      have hf : remove_spaces (b :: rest) = remove_spaces rest := by
        simp [remove_spaces, List.filter_cons, h1]
      rw [hf, ih v]
      conv_rhs => rw [parse_octal_loop, if_pos hs]
    · have h1 : is_space b = false := by simp [is_space, hs]
      have hf : remove_spaces (b :: rest) = b :: remove_spaces rest := by
        simp [remove_spaces, List.filter_cons, h1]
      rw [hf, parse_octal_loop, parse_octal_loop, if_neg hs, if_neg hs]
      split
      · exact ih _
      · rfl

theorem parse_octal_remove_spaces (xs : List uint8_t) :
    parse_octal (remove_spaces xs) (remove_spaces xs).length = parse_octal xs xs.length := by
  unfold parse_octal
  rw [List.take_length, List.take_length]
  exact parse_octal_loop_remove_spaces xs 0

/-- C15: `parse_octal` does not see space bytes: for every byte sequence the
value with all spaces removed is the value of the sequence itself; two
sequences that differ only in their space bytes decode alike; and inserting
any number of spaces at any position of a sequence leaves its value as it is. -/
theorem parse_octal_space_insensitive :
    (∀ xs : List uint8_t,
      parse_octal (remove_spaces xs) (remove_spaces xs).length = parse_octal xs xs.length) ∧
    (∀ xs ys : List uint8_t, remove_spaces xs = remove_spaces ys →
      parse_octal xs xs.length = parse_octal ys ys.length) ∧
    (∀ (xs ys : List uint8_t) (k : Nat),
      parse_octal (xs ++ List.replicate k (32 : uint8_t) ++ ys)
          (xs ++ List.replicate k (32 : uint8_t) ++ ys).length =
        parse_octal (xs ++ ys) (xs ++ ys).length) := by
  refine ⟨parse_octal_remove_spaces, ?_, ?_⟩
  · intro xs ys hxy
    rw [← parse_octal_remove_spaces xs, ← parse_octal_remove_spaces ys, hxy]
  · intro xs ys k
    have hrep : remove_spaces (List.replicate k (32 : uint8_t)) = [] := by
      unfold remove_spaces
      rw [List.filter_eq_nil_iff]
      intro b hb
      rw [List.mem_replicate] at hb
      rw [hb.2]
      decide
    have hrem : remove_spaces (xs ++ List.replicate k (32 : uint8_t) ++ ys) =
        remove_spaces (xs ++ ys) := by
      have e1 : remove_spaces (xs ++ List.replicate k (32 : uint8_t) ++ ys) =
          remove_spaces xs ++ remove_spaces (List.replicate k (32 : uint8_t)) ++ remove_spaces ys := by
        simp only [remove_spaces, List.filter_append]
      have e2 : remove_spaces (xs ++ ys) = remove_spaces xs ++ remove_spaces ys := by
        simp only [remove_spaces, List.filter_append]
      rw [e1, e2, hrep, List.append_nil]
    rw [← parse_octal_remove_spaces (xs ++ List.replicate k (32 : uint8_t) ++ ys),
      ← parse_octal_remove_spaces (xs ++ ys), hrem]

/-- Witness of C15: " 7 5 5 " and "755" lose the same spaces and both decode to 493. -/
theorem parse_octal_space_insensitive_witness :
    parse_octal ([32, 55, 32, 53, 32, 53, 32] : List uint8_t) 7 =
      parse_octal ([55, 53, 53] : List uint8_t) 3 ∧
    parse_octal ([55, 53, 53] : List uint8_t) 3 = 493 :=
  ⟨parse_octal_space_insensitive.2.1 [32, 55, 32, 53, 32, 53, 32] [55, 53, 53] (by decide),
   by decide⟩

/-! ## Claims on the two checksums -/

/-- C16: for every header the signed checksum of `tar_validate_header` is,
modulo `2 ^ 32`, the unsigned checksum minus 256 times the number of covered
bytes that are at least 0x80; the two are equal when every covered byte is
below 0x80; the parsed checksum is below `2 ^ 24`, so when the signed sum is
negative it differs from the signed checksum and a valid header matches the
unsigned one. -/
theorem signed_checksum_relation (h : tar_header_t) :
    ((checksum_signed h : Nat) : Int) =
      (((checksum_unsigned h : Nat) : Int) - 256 * ((high_byte_count h : Nat) : Int)) % 2 ^ 32 ∧
    ((∀ b ∈ summed_bytes h, b.val < 128) → checksum_signed h = checksum_unsigned h) ∧
    checksum_parsed h < 2 ^ 24 ∧
    (signed_sum h < 0 → checksum_parsed h ≠ checksum_signed h) ∧
    (signed_sum h < 0 → tar_validate_header h = true →
      checksum_parsed h = checksum_unsigned h) := by
  have hu := checksum_unsigned_eq h
  have hs := checksum_signed_eq h
  have hb := unsigned_sum_bounds h
  have hsb := signed_sum_bounds h
  have hr := unsigned_sum_eq_signed h
  have hp : checksum_parsed h < 16777216 := by
    have := (checksum_parsed_eq h).2
    norm_num at this
    exact this
  have hrel : ((checksum_signed h : Nat) : Int) =
      (((checksum_unsigned h : Nat) : Int) - 256 * ((high_byte_count h : Nat) : Int)) % 2 ^ 32 := by
    unfold high_byte_count
    omega
  have hneg : signed_sum h < 0 → checksum_parsed h ≠ checksum_signed h := by
    intro hlt heq
    omega
  refine ⟨hrel, ?_, by norm_num; exact hp, hneg, ?_⟩
  · intro hall
    have h0 : high_byte_count h = 0 := by
      unfold high_byte_count
      rw [List.countP_eq_zero]
      intro b hb
      have := hall b hb
      simp only [decide_eq_true_eq]
      omega
    rw [h0] at hrel
    omega
  · intro hlt hv
    rw [validate_iff_code] at hv
    rcases hv.2.2.2 with hc | hc
    · exact hc
    · exact absurd hc (hneg hlt)

/-- Witness of C16: the sample header has no covered byte at or above 0x80 and
its two checksums are 5464; the header filled with 0xC3 has 255 such bytes, a
negative signed sum, and a parsed checksum equal to the unsigned one, 54375. -/
theorem signed_checksum_relation_witness :
    checksum_signed sample_header = checksum_unsigned sample_header ∧
    checksum_parsed high_header ≠ checksum_signed high_header ∧
    checksum_parsed high_header = checksum_unsigned high_header ∧
    high_byte_count high_header = 255 ∧ checksum_unsigned high_header = 54375 ∧
    checksum_signed high_header = 4294956391 :=
  ⟨(signed_checksum_relation sample_header).2.1 (by decide!),
   (signed_checksum_relation high_header).2.2.2.1 (by decide!),
   (signed_checksum_relation high_header).2.2.2.2 (by decide!) (by decide!),
   by decide!, by decide!, by decide!⟩

/-- C17: on every header for which `tar_validate_header` returns true,
replacing the byte at an offset in 0..147 or 156..499 with a different value,
the checksum member left as it is, makes it return false: the stored checksum
is unchanged, and neither the new unsigned checksum nor the new signed checksum
equals it, whichever of the two it matched before. -/
theorem single_byte_change_detected (h : tar_header_t) (i : Nat) (v : uint8_t)
    (hv : tar_validate_header h = true) (hi : i < 148 ∨ (156 ≤ i ∧ i < 500))
    (hne : v ≠ h.byte i) :
    tar_validate_header (h.set_byte i v) = false ∧
    checksum_parsed (h.set_byte i v) = checksum_parsed h ∧
    checksum_unsigned (h.set_byte i v) ≠ checksum_parsed h ∧
    checksum_signed (h.set_byte i v) ≠ checksum_parsed h := by
  have hc : checksum_parsed h = checksum_unsigned h ∨ checksum_parsed h = checksum_signed h :=
    ((validate_iff_code h).mp hv).2.2.2
  have hm := checksum_mismatch_set_covered_byte h i v hc hi hne
  exact ⟨validate_set_covered_byte h i v hv hi hne, hm.1, hm.2.1, hm.2.2⟩

/-- Witness of C17: in the valid header filled with 0xC3, changing the first
name byte from 0xC3 to 0x43 (a change of 128, which flips its sign as a signed
byte) makes the header invalid. -/
theorem single_byte_change_detected_witness :
    tar_validate_header (high_header.set_byte 0 67) = false ∧
    checksum_unsigned (high_header.set_byte 0 67) ≠ checksum_parsed high_header ∧
    checksum_signed (high_header.set_byte 0 67) ≠ checksum_parsed high_header :=
  ⟨(single_byte_change_detected high_header 0 67 (by decide!) (by decide) (by decide!)).1,
   (single_byte_change_detected high_header 0 67 (by decide!) (by decide) (by decide!)).2.2.1,
   (single_byte_change_detected high_header 0 67 (by decide!) (by decide) (by decide!)).2.2.2⟩

/-! ## Lemmas on the version check -/

theorem octal_value_eq_zero_iff (ds : List uint8_t) (acc : Nat) :
    ds.foldl (fun a d => 8 * a + (d.val - 48)) acc = 0 ↔
      acc = 0 ∧ ∀ d ∈ ds, d.val - 48 = 0 := by
  induction ds generalizing acc with
  | nil => simp
  | cons d rest ih =>
    simp only [List.foldl_cons, List.mem_cons, forall_eq_or_imp]
    rw [ih (8 * acc + (d.val - 48))]
    constructor
    · rintro ⟨h1, h2⟩
      exact ⟨by omega, by omega, h2⟩
    · rintro ⟨h1, h2, h3⟩
      exact ⟨by omega, h3⟩

theorem parse_octal_eq_zero_iff (field : List uint8_t) (n : Nat) (hn : n ≤ 21) :
    parse_octal field n = 0 ↔
      ∀ b ∈ octal_scan_span (field.take n), ¬ (49 ≤ b.val ∧ b.val ≤ 55) := by
  rw [parse_octal_eq_unbounded field n hn, parse_octal_loop_unbounded_eq_foldl,
    octal_value_eq_zero_iff]
  constructor
  · rintro ⟨_, hz⟩ b hb
    by_cases hs : b.val = 32
    · omega
    · have hmem : b ∈ (octal_scan_span (field.take n)).filter (fun b => !is_space b) := by
        rw [List.mem_filter]
        exact ⟨hb, by simp [is_space, hs]⟩
      have := hz b hmem
      omega
  · intro hall
    refine ⟨rfl, ?_⟩
    intro d hd
    have hdig := scan_digits_are_digits (field.take n) d hd
    have := hall d (List.mem_of_mem_filter hd)
    omega

/-! ## Claims on the version check -/

/-- C19: the version check of `tar_validate_header` passes exactly when no
digit `'1'..'7'` occurs in the 2-byte version member before its first byte that
is neither a space nor an octal digit; every header with a correct magic whose
version member meets this condition validates once its checksum member holds
the unsigned sum; and such headers exist with the version members two spaces,
two NULs, a space then a NUL after the magic "ustar" space, and two letters. -/
theorem version_check_permissive :
    (∀ h : tar_header_t,
      parse_octal (h.member 263 2) 2 = 0 ↔
        ∀ b ∈ octal_scan_span (h.member 263 2), ¬ (49 ≤ b.val ∧ b.val ≤ 55)) ∧
    (∀ h : tar_header_t, h.member 257 5 = ustar →
      ((h.byte 262).val = 0 ∨ (h.byte 262).val = 32) →
      (∀ b ∈ octal_scan_span (h.member 263 2), ¬ (49 ≤ b.val ∧ b.val ≤ 55)) →
      tar_validate_header (h.set_checksum (checksum_field (unsigned_sum h))) = true) ∧
    ((version_header 0 32 32).member 263 2 = [32, 32] ∧
      tar_validate_header (version_header 0 32 32) = true) ∧
    ((version_header 0 0 0).member 263 2 = [0, 0] ∧
      tar_validate_header (version_header 0 0 0) = true) ∧
    ((version_header 32 32 0).member 257 8 = [117, 115, 116, 97, 114, 32, 32, 0] ∧
      tar_validate_header (version_header 32 32 0) = true) ∧
    ((version_header 0 97 98).member 263 2 = [97, 98] ∧
      tar_validate_header (version_header 0 97 98) = true) := by
  have hiff : ∀ h : tar_header_t,
      parse_octal (h.member 263 2) 2 = 0 ↔
        ∀ b ∈ octal_scan_span (h.member 263 2), ¬ (49 ≤ b.val ∧ b.val ≤ 55) := by
    intro h
    have hlen := member_length h 263 2 (by norm_num)
    have ht : (h.member 263 2).take 2 = h.member 263 2 :=
      List.take_of_length_le (le_of_eq hlen)
    have := parse_octal_eq_zero_iff (h.member 263 2) 2 (by norm_num)
    rwa [ht] at this
  refine ⟨hiff, ?_, ⟨by decide!, by decide!⟩, ⟨by decide!, by decide!⟩,
    ⟨by decide!, by decide!⟩, ⟨by decide!, by decide!⟩⟩
  intro h hm h6 hver
  have hb := unsigned_sum_bounds h
  have hf := parse_octal_checksum_field (unsigned_sum h) (lt_of_le_of_lt hb.2 (by norm_num))
  exact validate_set_checksum h _ hm h6 ((hiff h).mpr hver) hf.1 hf.2

/-- Witness of C19: the version member "0 " of a header passes the check, and
the version member "01" does not. -/
theorem version_check_permissive_witness :
    parse_octal ((version_header 0 48 32).member 263 2) 2 = 0 ∧
    tar_validate_header
      ((version_header 0 48 32).set_checksum
        (checksum_field (unsigned_sum (version_header 0 48 32)))) = true ∧
    tar_validate_header (version_header 0 48 49) = false :=
  ⟨(version_check_permissive.1 (version_header 0 48 32)).mpr (by decide!),
   version_check_permissive.2.1 (version_header 0 48 32) (by decide!) (by decide!) (by decide!),
   by decide!⟩

/-! ## Lemmas on the caller's arithmetic -/

theorem land_not_511 (x : Nat) (hx : x < 2 ^ 64) :
    x &&& (2 ^ 64 - 1 - 511) = x / 512 * 512 := by
  have e1 : (2 : Nat) ^ 64 - 1 - 511 = 2 ^ 9 * (2 ^ 55 - 1) := by norm_num
  have e2 : x / 512 * 512 = 2 ^ 9 * (x >>> 9) := by
    rw [Nat.shiftRight_eq_div_pow]
    norm_num
    ring
  rw [e1, e2]
  apply Nat.eq_of_testBit_eq
  intro i
  rw [Nat.testBit_and, Nat.testBit_mul_pow_two, Nat.testBit_mul_pow_two,
    Nat.testBit_two_pow_sub_one, Nat.testBit_shiftRight]
  by_cases h9 : i ≥ 9
  · have hi : 9 + (i - 9) = i := by omega
    rw [hi]
    by_cases h64 : i < 64
    · have : i - 9 < 55 := by omega
      simp [h9, this]
    · have hlt : x < 2 ^ i :=
        lt_of_lt_of_le hx (Nat.pow_le_pow_right (by norm_num) (by omega))
      simp [Nat.testBit_lt_two_pow hlt]
  · simp [h9]

theorem payload_skip_length_eq (h : tar_header_t) :
    tar_get_size h + 511 < 2 ^ 64 ∧
    payload_skip_length h = (tar_get_size h + 511) / 512 * 512 := by
  have hsz : tar_get_size h < 8 ^ 12 := parse_octal_lt_pow h.size 12
  have hlt : tar_get_size h + 511 < 2 ^ 64 := by
    norm_num at hsz ⊢
    omega
  refine ⟨hlt, ?_⟩
  unfold payload_skip_length
  rw [Nat.mod_eq_of_lt hlt, land_not_511 _ hlt]

theorem parse_octal_mode_field (m : Nat) (hm : m < 8 ^ 7) :
    (mode_field m).length = 8 ∧ parse_octal (mode_field m) 8 = m := by
  refine ⟨rfl, ?_⟩
  have hstop : ∀ v : Nat, parse_octal_loop [(0 : uint8_t)] v = v := fun v => rfl
  have ht : (mode_field m).take 8 = mode_field m := rfl
  unfold parse_octal
  rw [ht]
  unfold mode_field
  rw [parse_octal_loop_digit, parse_octal_loop_digit, parse_octal_loop_digit,
    parse_octal_loop_digit, parse_octal_loop_digit, parse_octal_loop_digit,
    parse_octal_loop_digit, hstop]
  norm_num at hm
  omega

theorem mode_test_natCast (m k : Nat) : mode_test (m : Int) (1 <<< k) = m.testBit k := by
  have hland : Int.land (m : Int) ((1 <<< k : Nat) : Int) = ((m &&& (1 <<< k) : Nat) : Int) := rfl
  unfold mode_test
  rw [hland, Nat.shiftLeft_eq, Nat.one_mul, Nat.and_two_pow]
  cases hb : m.testBit k
  · simp
  · simp

/-! ## Claims on the caller's arithmetic -/

/-- C12: for every header the payload-skip length `(size + 511) & ~511`,
computed in 64-bit unsigned arithmetic, does not wrap and is the least multiple
of 512 that is at least `tar_get_size`: it is a multiple of 512, it is at
least the size, and no smaller multiple of 512 is. -/
theorem payload_skip_length_least_multiple (h : tar_header_t) :
    tar_get_size h + 511 < 2 ^ 64 ∧
    512 ∣ payload_skip_length h ∧
    tar_get_size h ≤ payload_skip_length h ∧
    (∀ m : Nat, 512 ∣ m → tar_get_size h ≤ m → payload_skip_length h ≤ m) := by
  obtain ⟨hlt, heq⟩ := payload_skip_length_eq h
  rw [heq]
  refine ⟨hlt, ?_, ?_, ?_⟩
  · exact Dvd.intro_left _ rfl
  · omega
  · intro m hm hle
    omega

/-- Witness of C12: the size member "00000000012" NUL decodes to 10 and gives
the skip length 512, no greater than the multiple 1024; the size 0 gives 0. -/
theorem payload_skip_length_least_multiple_witness :
    sample_header.member 124 12 = [48, 48, 48, 48, 48, 48, 48, 48, 48, 49, 50, 0] ∧
    tar_get_size sample_header = 10 ∧ payload_skip_length sample_header = 512 ∧
    payload_skip_length sample_header ≤ 1024 ∧
    tar_validate_header zero_size_header = true ∧
    tar_get_size zero_size_header = 0 ∧ payload_skip_length zero_size_header = 0 :=
  ⟨by decide!, by decide!, by decide!,
   (payload_skip_length_least_multiple sample_header).2.2.2 1024 (by decide) (by decide!),
   by decide!, by decide!, by decide!⟩

/-- C14: on every header whose mode member is "0000755" followed by NUL, the
tests of `tar_get_mode` against the `TAR_MODE_*` masks give user rwx, group r-x
and other r-x; and on every header whose mode member holds an `m < 512` as
seven zero-padded octal digits and a NUL, `tar_get_mode` is `m` and the masks
from `TAR_MODE_USER_READ` to `TAR_MODE_OTHER_EXECUTE` test bits 8 down to 0 of `m`. -/
theorem mode_masks_test_bits :
    (∀ h : tar_header_t, h.member 100 8 = [48, 48, 48, 48, 55, 53, 53, 0] →
      mode_test (tar_get_mode h) TAR_MODE_USER_READ = true ∧
      mode_test (tar_get_mode h) TAR_MODE_USER_WRITE = true ∧
      mode_test (tar_get_mode h) TAR_MODE_USER_EXECUTE = true ∧
      mode_test (tar_get_mode h) TAR_MODE_GROUP_READ = true ∧
      mode_test (tar_get_mode h) TAR_MODE_GROUP_WRITE = false ∧
      mode_test (tar_get_mode h) TAR_MODE_GROUP_EXECUTE = true ∧
      mode_test (tar_get_mode h) TAR_MODE_OTHER_READ = true ∧
      mode_test (tar_get_mode h) TAR_MODE_OTHER_WRITE = false ∧
      mode_test (tar_get_mode h) TAR_MODE_OTHER_EXECUTE = true) ∧
    (∀ (h : tar_header_t) (m : Nat), m < 512 → h.member 100 8 = mode_field m →
      tar_get_mode h = (m : Int) ∧
      mode_test (tar_get_mode h) TAR_MODE_USER_READ = m.testBit 8 ∧
      mode_test (tar_get_mode h) TAR_MODE_USER_WRITE = m.testBit 7 ∧
      mode_test (tar_get_mode h) TAR_MODE_USER_EXECUTE = m.testBit 6 ∧
      mode_test (tar_get_mode h) TAR_MODE_GROUP_READ = m.testBit 5 ∧
      mode_test (tar_get_mode h) TAR_MODE_GROUP_WRITE = m.testBit 4 ∧
      mode_test (tar_get_mode h) TAR_MODE_GROUP_EXECUTE = m.testBit 3 ∧
      mode_test (tar_get_mode h) TAR_MODE_OTHER_READ = m.testBit 2 ∧
      mode_test (tar_get_mode h) TAR_MODE_OTHER_WRITE = m.testBit 1 ∧
      mode_test (tar_get_mode h) TAR_MODE_OTHER_EXECUTE = m.testBit 0) := by
  have hgen : ∀ (h : tar_header_t) (m : Nat), m < 512 → h.member 100 8 = mode_field m →
      tar_get_mode h = (m : Int) := by
    intro h m hm hf
    have hp := (parse_octal_mode_field m (lt_trans hm (by norm_num))).2
    have hmod : m % 2 ^ 32 = m := Nat.mod_eq_of_lt (lt_trans hm (by norm_num))
    unfold tar_get_mode to_int tar_header_t.mode
    rw [hf, hp, hmod, if_pos (lt_trans hm (by norm_num))]
  constructor
  · intro h hf
    have h755 : tar_get_mode h = ((493 : Nat) : Int) := hgen h 493 (by norm_num) hf
    rw [h755]
    simp only [TAR_MODE_USER_READ, TAR_MODE_USER_WRITE, TAR_MODE_USER_EXECUTE,
      TAR_MODE_GROUP_READ, TAR_MODE_GROUP_WRITE, TAR_MODE_GROUP_EXECUTE, TAR_MODE_OTHER_READ,
      TAR_MODE_OTHER_WRITE, TAR_MODE_OTHER_EXECUTE, mode_test_natCast]
    decide
  · intro h m hm hf
    rw [hgen h m hm hf]
    simp only [TAR_MODE_USER_READ, TAR_MODE_USER_WRITE, TAR_MODE_USER_EXECUTE,
      TAR_MODE_GROUP_READ, TAR_MODE_GROUP_WRITE, TAR_MODE_GROUP_EXECUTE, TAR_MODE_OTHER_READ,
      TAR_MODE_OTHER_WRITE, TAR_MODE_OTHER_EXECUTE, mode_test_natCast, and_self]

/-- Witness of C14: the sample header holds the mode member "0000755" NUL, the
encoding of 493, and its group-write test is false while its user-read test is true. -/
theorem mode_masks_test_bits_witness :
    mode_field 493 = [48, 48, 48, 48, 55, 53, 53, 0] ∧
    mode_test (tar_get_mode sample_header) TAR_MODE_GROUP_WRITE = false ∧
    mode_test (tar_get_mode sample_header) TAR_MODE_USER_READ = (493 : Nat).testBit 8 :=
  ⟨by decide,
   (mode_masks_test_bits.1 sample_header (by decide!)).2.2.2.2.1,
   (mode_masks_test_bits.2 sample_header 493 (by decide) (by decide!)).2.1⟩

/-! ## Lemmas on the access traces -/

theorem strnlen__reads_bound (h : tar_header_t) (n pos : Nat) :
    ∀ i ∈ strnlen__reads h pos n, pos ≤ i ∧ i < pos + n := by
  induction n generalizing pos with
  | zero => intro i hi; simp [strnlen__reads] at hi
  | succ k ih =>
    intro i hi
    unfold strnlen__reads at hi
    rcases List.mem_cons.mp hi with h0 | h1
    · omega
    · split at h1
      · simp at h1
      · have := ih (pos + 1) i h1
        omega

theorem parse_octal_reads_bound (h : tar_header_t) (n pos : Nat) :
    ∀ i ∈ parse_octal_reads h pos n, pos ≤ i ∧ i < pos + n := by
  induction n generalizing pos with
  | zero => intro i hi; simp [parse_octal_reads] at hi
  | succ k ih =>
    intro i hi
    unfold parse_octal_reads at hi
    rcases List.mem_cons.mp hi with h0 | h1
    · omega
    · split at h1
      · have := ih (pos + 1) i h1
        omega
      · simp at h1

theorem range'_bound (pos n : Nat) : ∀ i ∈ List.range' pos n, pos ≤ i ∧ i < pos + n := by
  intro i hi
  rw [List.mem_range'_1] at hi
  exact hi

theorem parse_string_reads_bound (h : tar_header_t) (off n : Nat) :
    ∀ i ∈ parse_string_reads h off n, off ≤ i ∧ i < off + n := by
  intro i hi
  unfold parse_string_reads memcpy_reads at hi
  rcases List.mem_append.mp hi with h1 | h1
  · exact strnlen__reads_bound h n off i h1
  · have hb := range'_bound _ _ i h1
    have hl := (strnlen__le (h.member off n) n).1
    omega

theorem parse_string_writes_bound (field : List uint8_t) (n : Nat) :
    ∀ i ∈ parse_string_writes field n, i ≤ n := by
  intro i hi
  have hl := (strnlen__le field n).1
  unfold parse_string_writes memcpy_writes at hi
  rcases List.mem_append.mp hi with h1 | h1
  · have hb := range'_bound _ _ i h1
    omega
  · simp only [List.mem_singleton] at h1
    omega

theorem tar_get_filename_reads_bound (h : tar_header_t) :
    ∀ i ∈ tar_get_filename_reads h, i < 500 := by
  intro i hi
  have hp := (strnlen__le (tar_header_t.filename_prefix h) 155).1
  have hs : strnlen h.filename 100 ≤ 100 := by
    rw [strnlen_eq]
    exact (strnlen__le h.filename 100).1
  unfold tar_get_filename_reads memcpy_reads at hi
  simp only [List.mem_append] at hi
  rcases hi with ((h1 | h1) | h1) | h1
  · have := strnlen__reads_bound h 155 345 i h1; omega
  · have := range'_bound _ _ i h1; omega
  · have := strnlen__reads_bound h 100 0 i h1; omega
  · have := range'_bound _ _ i h1; omega

theorem tar_validate_header_reads_bound (h : tar_header_t) :
    ∀ i ∈ tar_validate_header_reads h, i < 500 := by
  intro i hi
  unfold tar_validate_header_reads memcmp_reads at hi
  rcases List.mem_append.mp hi with h1 | h1
  · have := range'_bound _ _ i h1; omega
  · split at h1
    · simp at h1
    · rcases List.mem_append.mp h1 with h2 | h2
      · simp only [List.mem_singleton] at h2; omega
      · split at h2
        · simp at h2
        · rcases List.mem_append.mp h2 with h3 | h3
          · have := parse_octal_reads_bound h 2 263 i h3; omega
          · split at h3
            · simp at h3
            · simp only [List.mem_append] at h3
              rcases h3 with (((h4 | h4) | h4) | h4) | h4
              · have := range'_bound _ _ i h4; omega
              · have := range'_bound _ _ i h4; omega
              · have := range'_bound _ _ i h4; omega
              · have := range'_bound _ _ i h4; omega
              · have := parse_octal_reads_bound h 8 148 i h4; omega

theorem accessor_reads_bound (h : tar_header_t) : ∀ i ∈ accessor_reads h, i < 500 := by
  intro i hi
  unfold accessor_reads at hi
  simp only [List.mem_append, List.mem_singleton] at hi
  rcases hi with ((((((((((h1 | h1) | h1) | h1) | h1) | h1) | h1) | h1) | h1) | h1) | h1) | h1
  · have := parse_octal_reads_bound h 8 100 i h1; omega
  · have := parse_octal_reads_bound h 8 108 i h1; omega
  · have := parse_octal_reads_bound h 8 116 i h1; omega
  · have := parse_octal_reads_bound h 12 124 i h1; omega
  · have := parse_octal_reads_bound h 12 136 i h1; omega
  · omega
  · exact tar_get_filename_reads_bound h i h1
  · have := parse_string_reads_bound h 157 100 i h1; omega
  · have := parse_string_reads_bound h 265 32 i h1; omega
  · have := parse_string_reads_bound h 297 32 i h1; omega
  · have := parse_octal_reads_bound h 8 329 i h1; omega
  · have := parse_octal_reads_bound h 8 337 i h1; omega

theorem memcpy_getElem?_of_not_mem (dst : List uint8_t) (off : Nat) (src : List uint8_t)
    (n i : Nat) (hi : i ∉ memcpy_writes off n) : (memcpy dst off src n)[i]? = dst[i]? := by
  induction n with
  | zero => rfl
  | succ k ih =>
    unfold memcpy_writes at hi ih
    rw [List.mem_range'_1] at hi
    have hk : i ∉ List.range' off k := by
      rw [List.mem_range'_1]
      omega
    unfold memcpy
    rw [List.getElem?_set_ne (by omega), ih hk]

theorem parse_string_untouched (field : List uint8_t) (n : Nat) (buffer : tar_string_buffer_t)
    (i : Nat) (hi : i ∉ parse_string_writes field n) :
    (parse_string field n buffer).str[i]? = buffer.str[i]? := by
  unfold parse_string_writes at hi
  simp only [List.mem_append, List.mem_singleton, not_or] at hi
  unfold parse_string
  simp only
  rw [List.getElem?_set_ne (fun hc => hi.2 hc.symm), memcpy_getElem?_of_not_mem _ _ _ _ _ hi.1]

theorem tar_get_filename_untouched (h : tar_header_t) (buffer : tar_string_buffer_t)
    (i : Nat) (hi : i ∉ tar_get_filename_writes h) :
    (tar_get_filename h buffer).str[i]? = buffer.str[i]? := by
  unfold tar_get_filename_writes at hi
  simp only [List.mem_append, List.mem_singleton, not_or] at hi
  unfold tar_get_filename
  simp only
  rw [List.getElem?_set_ne (fun hc => hi.2 hc.symm),
    memcpy_getElem?_of_not_mem _ _ _ _ _ hi.1.2, memcpy_getElem?_of_not_mem _ _ _ _ _ hi.1.1]

/-! ## Claims on memory safety -/

/-- C13: for every header, valid or not, in `tar_get_filename` the prefix
length is at most 155 and the name length at most 100, and every buffer index
it stores to, the terminator index included, is at most 255; every index
`parse_string` stores to is at most its width, hence at most 100 for the link
target and 32 for the owner and group names; and every header offset read by
an accessor or by `tar_validate_header` is at most 511. The indices stored to
are all the indices changed: any other index of the buffer keeps its byte. -/
theorem accesses_in_bounds (h : tar_header_t) :
    (strnlen_ (tar_header_t.filename_prefix h) 155 ≤ 155 ∧ strnlen h.filename 100 ≤ 100 ∧
      ∀ i ∈ tar_get_filename_writes h, i ≤ 255) ∧
    ((∀ i ∈ parse_string_writes h.linked_filename 100, i ≤ 100) ∧
      (∀ i ∈ parse_string_writes h.owner_name 32, i ≤ 32) ∧
      (∀ i ∈ parse_string_writes h.group_name 32, i ≤ 32)) ∧
    (∀ i ∈ accessor_reads h, i ≤ 511) ∧
    (∀ i ∈ tar_validate_header_reads h, i ≤ 511) ∧
    (∀ (buffer : tar_string_buffer_t) (i : Nat),
      (i ∉ tar_get_filename_writes h →
        (tar_get_filename h buffer).str[i]? = buffer.str[i]?) ∧
      (i ∉ parse_string_writes h.linked_filename 100 →
        (tar_get_linked_filename h buffer).str[i]? = buffer.str[i]?) ∧
      (i ∉ parse_string_writes h.owner_name 32 →
        (tar_get_owner_name h buffer).str[i]? = buffer.str[i]?) ∧
      (i ∉ parse_string_writes h.group_name 32 →
        (tar_get_group_name h buffer).str[i]? = buffer.str[i]?)) := by
  have hp := (strnlen__le (tar_header_t.filename_prefix h) 155).1
  have hs : strnlen h.filename 100 ≤ 100 := by
    rw [strnlen_eq]
    exact (strnlen__le h.filename 100).1
  refine ⟨⟨hp, hs, ?_⟩, ⟨parse_string_writes_bound _ _, parse_string_writes_bound _ _,
    parse_string_writes_bound _ _⟩, ?_, ?_, ?_⟩
  · intro i hi
    unfold tar_get_filename_writes memcpy_writes at hi
    simp only [List.mem_append, List.mem_singleton] at hi
    rcases hi with (h1 | h1) | h1
    · have := range'_bound _ _ i h1; omega
    · have := range'_bound _ _ i h1; omega
    · omega
  · intro i hi
    have := accessor_reads_bound h i hi
    omega
  · intro i hi
    have := tar_validate_header_reads_bound h i hi
    omega
  · intro buffer i
    exact ⟨tar_get_filename_untouched h buffer i,
      parse_string_untouched h.linked_filename 100 buffer i,
      parse_string_untouched h.owner_name 32 buffer i,
      parse_string_untouched h.group_name 32 buffer i⟩

/-- Witness of C13: on the sample header `tar_get_filename` stores its
terminator at index 8, after "dir" and "a.txt"; `tar_get_owner_name` stores
its terminator at index 4; the validator reads offset 499 and the accessors
read offset 345. -/
theorem accesses_in_bounds_witness :
    tar_get_filename_writes sample_header = [0, 1, 2, 3, 4, 5, 6, 7, 8] ∧
    8 ≤ 255 ∧ 4 ≤ 32 ∧ 345 ≤ 511 ∧ 499 ≤ 511 :=
  ⟨by decide!,
   (accesses_in_bounds sample_header).1.2.2 8 (by decide!),
   (accesses_in_bounds sample_header).2.1.2.1 4 (by decide!),
   (accesses_in_bounds sample_header).2.2.1 345 (by decide!),
   (accesses_in_bounds sample_header).2.2.2.1 499 (by decide!)⟩

end Tar
